import Mathlib

/-!
Verification of the proportional capacity-allocation engine of
src/DynamicProgrammingTask1.py (class ProportionalAllocation).

Numbers in the source are Python/NumPy floats.  We model them as exact
rationals extended with the three IEEE special values that the source can
actually produce: positive infinity (float('inf'), used by fillna for a
missing INDIVIDUAL LIMIT), negative infinity, and NaN (from 0/0 when the
total demand is zero, and from the NaN that pandas stores for a missing
INDIVIDUAL LIMIT when line 99 compares against the raw column).  Rounding
is not modelled; all claims are about the ideal real-number behaviour.
-/

/-- Idealized float value: an exact rational, or one of the IEEE special
values the source manipulates. -/
inductive F where
  | fin : ℚ → F
  | pinf : F
  | ninf : F
  | nan : F
deriving DecidableEq, Repr

/-- Python float comparison x < y: NaN compares false against everything. -/
def F.lt : F → F → Bool
  | .fin a, .fin b => a < b
  | .fin _, .pinf => true
  | .ninf, .fin _ => true
  | .ninf, .pinf => true
  | _, _ => false

/-- Python float comparison x <= y: NaN compares false against everything. -/
def F.le : F → F → Bool
  | .fin a, .fin b => a ≤ b
  | .fin _, .pinf => true
  | .ninf, .fin _ => true
  | .ninf, .pinf => true
  | .ninf, .ninf => true
  | .pinf, .pinf => true
  | _, _ => false

/-- IEEE float addition on the idealized values. -/
def F.add : F → F → F
  | .fin a, .fin b => .fin (a + b)
  | .fin _, .pinf => .pinf
  | .fin _, .ninf => .ninf
  | .pinf, .fin _ => .pinf
  | .ninf, .fin _ => .ninf
  | .pinf, .pinf => .pinf
  | .ninf, .ninf => .ninf
  | .pinf, .ninf => .nan
  | .ninf, .pinf => .nan
  | _, _ => .nan

/-- IEEE float negation. -/
def F.neg : F → F
  | .fin a => .fin (-a)
  | .pinf => .ninf
  | .ninf => .pinf
  | .nan => .nan

/-- IEEE float subtraction. -/
def F.sub (x y : F) : F := F.add x (F.neg y)

/-- IEEE float multiplication (inf times zero is NaN). -/
def F.mul : F → F → F
  | .fin a, .fin b => .fin (a * b)
  | .fin a, .pinf => if a = 0 then .nan else if 0 < a then .pinf else .ninf
  | .fin a, .ninf => if a = 0 then .nan else if 0 < a then .ninf else .pinf
  | .pinf, .fin b => if b = 0 then .nan else if 0 < b then .pinf else .ninf
  | .ninf, .fin b => if b = 0 then .nan else if 0 < b then .ninf else .pinf
  | .pinf, .pinf => .pinf
  | .ninf, .ninf => .pinf
  | .pinf, .ninf => .ninf
  | .ninf, .pinf => .ninf
  | _, _ => .nan

/-- IEEE float division (0/0 is NaN, x/0 is a signed infinity). -/
def F.div : F → F → F
  | .fin a, .fin b =>
      if b = 0 then (if a = 0 then .nan else if 0 < a then .pinf else .ninf)
      else .fin (a / b)
  | .fin _, .pinf => .fin 0
  | .fin _, .ninf => .fin 0
  | .pinf, .fin b => if 0 ≤ b then .pinf else .ninf
  | .ninf, .fin b => if 0 ≤ b then .ninf else .pinf
  | _, _ => .nan

/-- Python builtin min(x, y): returns y when y < x, else x (so min(NaN, y)
is NaN and min(x, NaN) is x). -/
def F.pymin (x y : F) : F := if F.lt y x then y else x

/-- Python builtin sum over a list of floats: fold of + starting from 0. -/
def F.sumF (l : List F) : F := l.foldl F.add (F.fin 0)

/-- One row of the input DataFrame, restricted to the three columns the
allocation algorithm reads.  GROUP CAPACITY and CAPACITY hold numbers of
the sheet; INDIVIDUAL LIMIT may be empty in the sheet, which pandas stores
as NaN, modelled as none. -/
structure Row where
  groupCapacity : ℚ
  capacity : ℚ
  individualLimit : Option ℚ
deriving DecidableEq, Repr

instance : Inhabited Row := ⟨⟨0, 0, none⟩⟩

/-- A regular DataFrame handed to ProportionalAllocation.allocate:
presence flags for the three required columns (validate only checks
membership of data.columns), the data rows, and the three columns the call
writes into the frame (absent before the first call).  Other columns
(PRODUCT, SHARE, OVERLIMIT) are never read by allocate and are not
modelled.  Each modelled column label occurs at most once here, as in
every caller-built frame; the fresh zero-row frames built by
handle_empty_data, whose label list can repeat ALLOCATION, are the
separate type EmptyFrame. -/
structure DataFrame where
  hasGroupCapacity : Bool
  hasCapacity : Bool
  hasIndividualLimit : Bool
  rows : List Row
  allocationCol : Option (List F)
  newAllocShareCol : Option (List (Option F))
  newOverlimitCol : Option (List Bool)
deriving DecidableEq, Repr

/-- The fresh zero-row frame that handle_empty_data builds:
pd.DataFrame(columns=data.columns.tolist() + ['ALLOCATION']).  pandas
keeps duplicate column labels, so this frame must record how many of its
columns are labelled ALLOCATION, not merely whether one is present: each
further call on it appends one more.  A zero-row frame is determined by
its column labels, so the fields are the presence flags of the modelled
labels plus that count (label order is not modelled, matching the
abstraction level of DataFrame). -/
structure EmptyFrame where
  hasGroupCapacity : Bool
  hasCapacity : Bool
  hasIndividualLimit : Bool
  allocLabels : ℕ
  hasNewAllocShare : Bool
  hasNewOverlimit : Bool
deriving DecidableEq, Repr

/-- A frame as allocate receives or returns it: either a regular data
frame, or the fresh empty frame of handle_empty_data. -/
inductive PFrame where
  | reg (df : DataFrame)
  | emptied (ef : EmptyFrame)
deriving DecidableEq, Repr

/-- Whether a frame is a regular data frame rather than the fresh empty
frame of handle_empty_data. -/
def PFrame.isReg : PFrame → Bool
  | .reg _ => true
  | .emptied _ => false

namespace ProportionalAllocation

/-- Membership test of validate: required columns GROUP CAPACITY, CAPACITY,
INDIVIDUAL LIMIT are all present. -/
def requiredColumnsPresent (df : DataFrame) : Bool :=
  df.hasGroupCapacity && df.hasCapacity && df.hasIndividualLimit

/-- Membership test of validate on a fresh empty frame (its label list
keeps the three required labels of the frame it was built from). -/
def requiredColumnsPresentE (ef : EmptyFrame) : Bool :=
  ef.hasGroupCapacity && ef.hasCapacity && ef.hasIndividualLimit

/-- Membership test of validate on either frame shape. -/
def requiredColumnsPresentP : PFrame → Bool
  | .reg df => requiredColumnsPresent df
  | .emptied ef => requiredColumnsPresentE ef

/-- Source: limits = data['INDIVIDUAL LIMIT'].fillna(float('inf')): a
missing limit becomes positive infinity. -/
def fillna (l : Option ℚ) : F :=
  match l with
  | some v => F.fin v
  | none => F.pinf

/-- Source line 99 compares against the raw INDIVIDUAL LIMIT column, where
a missing limit is the stored NaN, not the filled infinity. -/
def rawLimit (l : Option ℚ) : F :=
  match l with
  | some v => F.fin v
  | none => F.nan

/-- Source: group_capacity = data['GROUP CAPACITY'].iloc[0].  allocate only
reaches this after the emptiness check, so the empty case is never used. -/
def extract_group_capacity (rows : List Row) : ℚ :=
  match rows with
  | [] => 0
  | r :: _ => r.groupCapacity

/-- Source: demands = data['CAPACITY']. -/
def demandsOf (rows : List Row) : List ℚ := rows.map Row.capacity

/-- Source: limits = data['INDIVIDUAL LIMIT'].fillna(float('inf')). -/
def limitsOf (rows : List Row) : List F :=
  rows.map (fun r => fillna r.individualLimit)

/-- Source lines 126-131, initial_allocation: allocation =
[min((demand / total_demand) * group_capacity, limit) for demand, limit in
zip(demands, limits)]. -/
def initial_allocation (demands : List ℚ) (limits : List F) (groupCapacity : ℚ) : List F :=
  let totalDemand : ℚ := demands.sum
  (demands.zip limits).map (fun dl =>
    F.pymin (F.mul (F.div (F.fin dl.1) (F.fin totalDemand)) (F.fin groupCapacity)) dl.2)

/-- Source lines 153-156, calculate_surplus: group_capacity minus the
current allocated capacity. -/
def calculate_surplus (groupCapacity : ℚ) (allocatedCapacity : F) : F :=
  F.sub (F.fin groupCapacity) allocatedCapacity

/-- Source lines 158-161, get_remaining_products: indices i with
allocation[i] < limits.iloc[i] (the filled limits). -/
def get_remaining_products (allocation : List F) (limits : List F) : List ℕ :=
  (List.range allocation.length).filter
    (fun i => F.lt (allocation.getD i F.nan) (limits.getD i F.nan))

/-- Source lines 163-166, calculate_remaining_demand: sum of demands over
the remaining products. -/
def calculate_remaining_demand (demands : List ℚ) (remaining : List ℕ) : ℚ :=
  (remaining.map (fun i => demands.getD i 0)).sum

/-- Source lines 176-179, calculate_additional_capacity: zero when the
remaining demand is zero, else the proportional share of the surplus. -/
def calculate_additional_capacity (demand remainingDemand : ℚ) (surplus : F) : F :=
  if remainingDemand = 0 then F.fin 0
  else F.mul (F.fin (demand / remainingDemand)) surplus

/-- Source lines 168-174, distribute_surplus: for each remaining index i,
allocation[i] = min(allocation[i] + additional_capacity, limits.iloc[i]),
updating the list in place in order. -/
def distribute_surplus (allocation : List F) (demands : List ℚ) (limits : List F)
    (remaining : List ℕ) (remainingDemand : ℚ) (surplus : F) : List F :=
  remaining.foldl (fun alloc i =>
    alloc.set i (F.pymin
      (F.add (alloc.getD i F.nan)
        (calculate_additional_capacity (demands.getD i 0) remainingDemand surplus))
      (limits.getD i F.nan))) allocation

/-- Source lines 133-151, adjust_allocation: the while loop, modelled with
explicit fuel.  fuel counts how many times the loop body may still run;
none means the loop has not exited after that many iterations (the source
has no iteration cap, so a run that returns none for every fuel is an
infinite loop of the Python code). -/
def adjust_allocation : ℕ → List F → List ℚ → List F → ℚ → Option (List F)
  | fuel, allocation, demands, limits, groupCapacity =>
    if F.lt (F.sumF allocation) (F.fin groupCapacity) then
      match fuel with
      | 0 => none
      | fuel' + 1 =>
        if get_remaining_products allocation limits = [] then some allocation
        else
          adjust_allocation fuel'
            (distribute_surplus allocation demands limits
              (get_remaining_products allocation limits)
              (calculate_remaining_demand demands
                (get_remaining_products allocation limits))
              (calculate_surplus groupCapacity (F.sumF allocation)))
            demands limits groupCapacity
    else some allocation

/-- One execution of the while-loop body of adjust_allocation (identity
when the loop guard is false or the body breaks).  Used to state claims
about intermediate iterations. -/
def adjust_step (allocation : List F) (demands : List ℚ) (limits : List F)
    (groupCapacity : ℚ) : List F :=
  if F.lt (F.sumF allocation) (F.fin groupCapacity) then
    if get_remaining_products allocation limits = [] then allocation
    else
      distribute_surplus allocation demands limits
        (get_remaining_products allocation limits)
        (calculate_remaining_demand demands (get_remaining_products allocation limits))
        (calculate_surplus groupCapacity (F.sumF allocation))
  else allocation

/-- State of the allocation vector after k iterations of the loop body. -/
def adjust_iter : ℕ → List F → List ℚ → List F → ℚ → List F
  | 0, allocation, _, _, _ => allocation
  | k + 1, allocation, demands, limits, groupCapacity =>
      adjust_iter k (adjust_step allocation demands limits groupCapacity)
        demands limits groupCapacity

/-- Source lines 181-189, calculate_allocation_share: NEW ALLOC. SHARE is
allocation / total capacity, or a column of None when total capacity is
zero. -/
def calculate_allocation_share (allocation : List F) (demands : List ℚ) : List (Option F) :=
  let totalCapacity : ℚ := demands.sum
  if totalCapacity = 0 then allocation.map (fun _ => none)
  else allocation.map (fun a => some (F.div a (F.fin totalCapacity)))

/-- Source line 99: data['NEW OVERLIMIT'] = data['ALLOCATION'] <
data['INDIVIDUAL LIMIT'].  Note this compares against the raw column, so a
missing limit is NaN here and the comparison is false. -/
def new_overlimit (allocation : List F) (rows : List Row) : List Bool :=
  (allocation.zip (rows.map (fun r => rawLimit r.individualLimit))).map
    (fun p => F.lt p.1 p.2)

/-- Source lines 113-115, handle_empty_data: returns
pd.DataFrame(columns=data.columns.tolist() + ['ALLOCATION']), a fresh
zero-row frame whose label list is the input's with one more ALLOCATION
label appended.  pandas keeps duplicate labels, so the ALLOCATION count
grows by one on every call: a regular frame contributes 1 or 0 of its own
depending on whether it already carries the column, and a fresh empty
frame contributes however many it has accumulated. -/
def handle_empty_data : PFrame → EmptyFrame
  | .reg df =>
      ⟨df.hasGroupCapacity, df.hasCapacity, df.hasIndividualLimit,
        (if df.allocationCol.isSome then 1 else 0) + 1,
        df.newAllocShareCol.isSome, df.newOverlimitCol.isSome⟩
  | .emptied ef => { ef with allocLabels := ef.allocLabels + 1 }

/-- Source lines 88-101, allocate.  The error case models the KeyError
raised by validate_columns when a required column is missing.  ok none
means the while loop had not exited after fuel iterations (the Python call
is still running); ok (some p) is the returned frame.  On a non-empty
regular frame, lines 97-99 assign the computed columns into the input
frame in place and line 101 returns that same frame, so the returned frame
is also the post-call state of the caller's data.  On an empty regular
frame the call builds and returns the fresh frame of handle_empty_data
instead.  A fresh empty frame fed back in always has zero rows, so after
validation it again reaches handle_empty_data, which appends one more
ALLOCATION label. -/
def allocate : ℕ → PFrame → Except Unit (Option PFrame)
  | fuel, .reg df =>
    if ¬ requiredColumnsPresent df then .error ()
    else if df.rows.isEmpty then .ok (some (.emptied (handle_empty_data (.reg df))))
    else
      let groupCapacity := extract_group_capacity df.rows
      let demands := demandsOf df.rows
      let limits := limitsOf df.rows
      let alloc0 := initial_allocation demands limits groupCapacity
      match adjust_allocation fuel alloc0 demands limits groupCapacity with
      | none => .ok none
      | some allocation =>
          .ok (some (.reg { df with
            allocationCol := some allocation,
            newAllocShareCol := some (calculate_allocation_share allocation demands),
            newOverlimitCol := some (new_overlimit allocation df.rows) }))
  | _fuel, .emptied ef =>
    if ¬ requiredColumnsPresentE ef then .error ()
    else .ok (some (.emptied (handle_empty_data (.emptied ef))))

end ProportionalAllocation

/-- Allocation column of an allocate result, when the call returned a
regular frame. -/
def allocResult (r : Except Unit (Option PFrame)) : Option (List F) :=
  match r with
  | .ok (some (.reg df)) => df.allocationCol
  | _ => none

/-- NEW OVERLIMIT column of an allocate result, when the call returned a
regular frame. -/
def flagsResult (r : Except Unit (Option PFrame)) : Option (List Bool) :=
  match r with
  | .ok (some (.reg df)) => df.newOverlimitCol
  | _ => none

/-- Whether an allocate result is the KeyError raised by validate_columns. -/
def isKeyError (r : Except Unit (Option PFrame)) : Bool :=
  match r with
  | .error _ => true
  | _ => false

/-- Computed output of an allocate result: for a regular returned frame
the three columns the call writes into it; for the empty path the whole
fresh frame, every part of which is built by the call. -/
def computedCols (r : Except Unit (Option PFrame)) :
    Option ((Option (List F) × Option (List (Option F)) × Option (List Bool)) ⊕ EmptyFrame) :=
  match r with
  | .ok (some (.reg df)) =>
      some (Sum.inl (df.allocationCol, df.newAllocShareCol, df.newOverlimitCol))
  | .ok (some (.emptied ef)) => some (Sum.inr ef)
  | _ => none

/-- Fresh input frame with the three required columns present and no
result columns, as a first call sees it. -/
def inputFrame (rs : List Row) : DataFrame :=
  ⟨true, true, true, rs, none, none, none⟩

/-- Input refuting C1: demands [0, 10], limits [200, 5], pool 100.  All
values are non-negative, the limits sum to 205 which is at least the pool,
and the total demand 10 is positive. -/
def c1df : DataFrame := inputFrame [⟨100, 0, some 200⟩, ⟨100, 10, some 5⟩]

/-- Failing input of C3: demands [0, 10], limits [5, 5], pool 100. -/
def c3df : DataFrame := inputFrame [⟨100, 0, some 5⟩, ⟨100, 10, some 5⟩]

/-- Failing input of C4: two entities of demand 0, limits [5, 5], pool 100. -/
def c4df : DataFrame := inputFrame [⟨100, 0, some 5⟩, ⟨100, 0, some 5⟩]

/-- Input refuting C5: one entity, demand 10, no limit, pool 50. -/
def c5df : DataFrame := inputFrame [⟨50, 10, none⟩]

/-- Input refuting C6: one entity with negative demand -5, limit 50,
pool 100; all required columns present. -/
def c6df : DataFrame := inputFrame [⟨100, -5, some 50⟩]

/-- Rational value of a float, zero on the special values. -/
def finVal : F → ℚ
  | F.fin q => q
  | _ => 0

/-- Concrete witness input for C1 (scenario 1 of the spec): demands
[30, 50, 20], limits [40, 60, 30], pool 100. -/
def c1wdf : DataFrame :=
  inputFrame [⟨100, 30, some 40⟩, ⟨100, 50, some 60⟩, ⟨100, 20, some 30⟩]

/-- Concrete witness input for C2: one entity, demand 5, limit 3, pool 10. -/
def c2wdf : DataFrame := inputFrame [⟨10, 5, some 3⟩]

/-- Concrete witness inputs for C8: one entity whose demand grows from 10
to 20, limit 100, pool 50. -/
def c8wdf : DataFrame := inputFrame [⟨50, 10, some 100⟩]

/-- The C8 witness frame with the increased demand. -/
def c8wdf2 : DataFrame := inputFrame [⟨50, 20, some 100⟩]

/-- Output frame of allocate on c8wdf. -/
def c8wout : DataFrame :=
  ⟨true, true, true, [⟨50, 10, some 100⟩],
    some [F.fin 50], some [some (F.fin 5)], some [true]⟩

/-- Output frame of allocate on c8wdf2. -/
def c8wout2 : DataFrame :=
  ⟨true, true, true, [⟨50, 20, some 100⟩],
    some [F.fin 50], some [some (F.fin (5 / 2))], some [true]⟩

/-- Concrete witness input for C10: demands [100, 1], limits [1, 1000],
pool 50 (the loop actually iterates and caps entity 0). -/
def c10wdf : DataFrame := inputFrame [⟨50, 100, some 1⟩, ⟨50, 1, some 1000⟩]

/-- Output frame of allocate on c5df (used by the C5 witness). -/
def c5wout : DataFrame :=
  ⟨true, true, true, [⟨50, 10, none⟩],
    some [F.fin 50], some [some (F.fin 5)], some [false]⟩

/-- Input frame for the C7 theorems (scenario 3 of the spec): demands
[1, 2], limits [1, 2], pool 4. -/
def c7wdf : DataFrame := inputFrame [⟨4, 1, some 1⟩, ⟨4, 2, some 2⟩]

/-- Output frame of allocate on c7wdf: the input frame with the three
computed columns written in. -/
def c7wout : DataFrame :=
  ⟨true, true, true, [⟨4, 1, some 1⟩, ⟨4, 2, some 2⟩],
    some [F.fin 1, F.fin 2],
    some [some (F.fin (1 / 3)), some (F.fin (2 / 3))],
    some [false, false]⟩

/-- C9 pair: two frames that agree everywhere except the GROUP CAPACITY
value of the second row. -/
def c9adf : DataFrame := inputFrame [⟨10, 1, some 5⟩, ⟨10, 1, some 5⟩]

/-- Same as c9adf except the second row's GROUP CAPACITY reads 999. -/
def c9bdf : DataFrame := inputFrame [⟨10, 1, some 5⟩, ⟨999, 1, some 5⟩]

/-- Output frame of allocate on c9adf. -/
def c9aout : DataFrame :=
  ⟨true, true, true, [⟨10, 1, some 5⟩, ⟨10, 1, some 5⟩],
    some [F.fin 5, F.fin 5],
    some [some (F.fin (5 / 2)), some (F.fin (5 / 2))],
    some [false, false]⟩

/-- Output frame of allocate on c9bdf: same computed columns, but it still
carries the differing GROUP CAPACITY value in its second row. -/
def c9bout : DataFrame :=
  ⟨true, true, true, [⟨10, 1, some 5⟩, ⟨999, 1, some 5⟩],
    some [F.fin 5, F.fin 5],
    some [some (F.fin (5 / 2)), some (F.fin (5 / 2))],
    some [false, false]⟩

/-- Demands are non-negative. -/
def NonnegDemands (d : List ℚ) : Prop := ∀ x ∈ d, 0 ≤ x

/-- Every filled limit is a finite rational or positive infinity (which is
exactly what fillna produces: never NaN, never negative infinity). -/
def GoodLimits (lims : List F) : Prop :=
  ∀ L ∈ lims, L = F.pinf ∨ ∃ l : ℚ, L = F.fin l

/-- Rational value of one entity of the water-filling profile at
multiplier mu: the proportional amount mu * demand, capped at the entity's
finite limit when it has one. -/
def wEntry (d : List ℚ) (lims : List F) (mu : ℚ) (i : ℕ) : ℚ :=
  match lims.getD i F.nan with
  | F.fin l => min (mu * d.getD i 0) l
  | _ => mu * d.getD i 0

/-- Total of the water-filling profile at multiplier mu over n entities. -/
def wSum (d : List ℚ) (lims : List F) (mu : ℚ) (n : ℕ) : ℚ :=
  ∑ i in Finset.range n, wEntry d lims mu i

/-- The allocation vector is the water-filling profile at multiplier mu:
every entry is the finite rational wEntry value.  This is the loop
invariant of adjust_allocation: the loop only ever moves the profile to a
larger multiplier. -/
def IsWater (d : List ℚ) (lims : List F) (mu : ℚ) (a : List F) : Prop :=
  a.length = d.length ∧
  ∀ i < d.length, a.getD i F.nan = F.fin (wEntry d lims mu i)

/-- Every entry of the allocation vector is of the shape min(t, limit) for
some finite t: the weak invariant behind the cap-respect claims. -/
def CapBounded (lims : List F) (a : List F) : Prop :=
  a.length = lims.length ∧
  ∀ i < a.length, ∃ t : ℚ, a.getD i F.nan = F.pymin (F.fin t) (lims.getD i F.nan)

open ProportionalAllocation

/-- Key fact behind the nontermination results: once the loop reaches a
state that its own body maps to itself while the loop guard still holds,
the while loop of adjust_allocation never exits, whatever the fuel. -/
theorem adjust_allocation_stuck (a : List F) (d : List ℚ) (lims : List F) (C : ℚ)
    (hguard : F.lt (F.sumF a) (F.fin C) = true)
    (hne : ¬ get_remaining_products a lims = [])
    (hfix : distribute_surplus a d lims (get_remaining_products a lims)
      (calculate_remaining_demand d (get_remaining_products a lims))
      (calculate_surplus C (F.sumF a)) = a) :
    ∀ fuel, adjust_allocation fuel a d lims C = none := by
  intro fuel
  induction fuel with
  | zero => rw [adjust_allocation]; simp [hguard]
  | succ n ih =>
      rw [adjust_allocation]
      simp only [hguard, if_true, hne, if_false]
      rw [hfix]
      exact ih

/-- C3 (code_bug): the spec says the redistribution loop always terminates
within N+1 iterations and in particular exits when the remaining demand of
the uncapped entities is zero.  On demands [0, 10], limits [5, 5], pool
100, the code instead loops forever: the initial allocation is [0, 5],
product 0 stays under its limit, the remaining demand is 0, so every
iteration adds 0 and the state never changes while the guard sum < 100
stays true.  Formally: for every iteration budget, the loop has still not
exited. -/
theorem C3_redistribution_loop_diverges :
    ∀ fuel, ProportionalAllocation.allocate fuel (PFrame.reg c3df) = Except.ok none := by
  have ha : initial_allocation [0, 10] [F.fin 5, F.fin 5] 100 = [F.fin 0, F.fin 5] := by
    norm_num [initial_allocation, F.div, F.mul, F.pymin, F.lt]
  have hsum : F.sumF [F.fin 0, F.fin 5] = F.fin 5 := by
    norm_num [F.sumF, F.add]
  have hrem : get_remaining_products [F.fin 0, F.fin 5] [F.fin 5, F.fin 5] = [0] := by
    norm_num [get_remaining_products, F.lt, List.range, List.range.loop, List.filter]
  have hstuck := adjust_allocation_stuck [F.fin 0, F.fin 5] [0, 10] [F.fin 5, F.fin 5] 100
    (by norm_num [hsum, F.lt])
    (by rw [hrem]; simp)
    (by
      rw [hrem, hsum]
      norm_num [distribute_surplus, calculate_remaining_demand,
        calculate_additional_capacity, calculate_surplus, F.sub, F.neg, F.add,
        F.pymin, F.lt, List.set])
  intro fuel
  simp only [ProportionalAllocation.allocate, c3df, inputFrame,
    requiredColumnsPresent, demandsOf, limitsOf, extract_group_capacity,
    fillna, List.map, List.isEmpty]
  norm_num [ha, hstuck fuel]

/-- C4 (code_bug): the spec says that with zero total demand every
allocation is zero and their sum is zero.  On the non-empty frame c4df the
code divides 0 by the zero total demand, so every initial allocation is
NaN; the loop guard (NaN < 100) is false, and the returned ALLOCATION
column is [NaN, NaN], not [0, 0] (its float sum is NaN, not 0). -/
theorem C4_zero_demand_gives_nan :
    allocResult (ProportionalAllocation.allocate 1 (PFrame.reg c4df)) = some [F.nan, F.nan] ∧
      F.sumF [F.nan, F.nan] = F.nan := by
  constructor
  · norm_num [ProportionalAllocation.allocate, c4df, inputFrame, allocResult,
      requiredColumnsPresent, demandsOf, limitsOf, extract_group_capacity,
      fillna, initial_allocation, adjust_allocation, F.div, F.mul, F.pymin,
      F.lt, F.sumF, F.add]
  · norm_num [F.sumF, F.add]

/-- Counterexample to C5: on c5df (one entity, demand 10, pool 50, limit
missing) the allocation is the finite value 50, the claim says the flag is
allocated < limit with a missing limit read as infinity, i.e. 50 < inf =
true, but the code compares against the raw NaN of the column and returns
false. -/
theorem C5_flag_counterexample :
    allocResult (ProportionalAllocation.allocate 1 (PFrame.reg c5df)) = some [F.fin 50] ∧
      flagsResult (ProportionalAllocation.allocate 1 (PFrame.reg c5df)) = some [false] ∧
      F.lt (F.fin 50) (ProportionalAllocation.fillna none) = true := by
  refine ⟨?_, ?_, by norm_num [ProportionalAllocation.fillna, F.lt]⟩ <;>
    norm_num [ProportionalAllocation.allocate, c5df, inputFrame, allocResult,
      flagsResult, requiredColumnsPresent, demandsOf, limitsOf,
      extract_group_capacity, fillna, rawLimit, initial_allocation,
      adjust_allocation, new_overlimit, calculate_allocation_share,
      F.div, F.mul, F.pymin, F.lt, F.sumF, F.add]

/-- Counterexample to C6: c6df has a negative demand (-5) and all required
columns present; the claim says allocate fails with a validation error and
computes no allocation, but the code raises no error and returns an
allocation (validate only checks column presence). -/
theorem C6_negative_input_counterexample :
    c6df.rows.map Row.capacity = [-5] ∧
      isKeyError (ProportionalAllocation.allocate 1 (PFrame.reg c6df)) = false ∧
      allocResult (ProportionalAllocation.allocate 1 (PFrame.reg c6df)) = some [F.fin 50] := by
  refine ⟨by norm_num [c6df, inputFrame], ?_, ?_⟩ <;>
    norm_num [ProportionalAllocation.allocate, c6df, inputFrame, isKeyError,
      allocResult, requiredColumnsPresent, demandsOf, limitsOf,
      extract_group_capacity, fillna, initial_allocation, adjust_allocation,
      get_remaining_products, List.range, List.range.loop, List.filter,
      F.div, F.mul, F.pymin, F.lt, F.sumF, F.add]

/-- Counterexample to C1: c1df has non-negative demands [0, 10] and limits
[200, 5], the limits sum to 205 which is at least the pool 100, and the
total demand 10 is positive, so the claim asserts the allocations sum to
100.  Instead the call never returns: the loop reaches the state [0, 5]
with product 0 uncapped and remaining demand 0, and spins forever (still
running after 100 iterations; adjust_allocation_stuck shows the state is a
fixpoint of the body, so no fuel suffices). -/
theorem C1_conservation_counterexample :
    ((200 : ℚ) + 5 ≥ 100 ∧ (0 : ℚ) + 10 > 0) ∧
      ProportionalAllocation.allocate 100 (PFrame.reg c1df) = Except.ok none := by
  refine ⟨⟨by norm_num, by norm_num⟩, ?_⟩
  have ha : initial_allocation [0, 10] [F.fin 200, F.fin 5] 100 = [F.fin 0, F.fin 5] := by
    norm_num [initial_allocation, F.div, F.mul, F.pymin, F.lt]
  have hsum : F.sumF [F.fin 0, F.fin 5] = F.fin 5 := by
    norm_num [F.sumF, F.add]
  have hrem : get_remaining_products [F.fin 0, F.fin 5] [F.fin 200, F.fin 5] = [0] := by
    norm_num [get_remaining_products, F.lt, List.range, List.range.loop, List.filter]
  have hstuck := adjust_allocation_stuck [F.fin 0, F.fin 5] [0, 10] [F.fin 200, F.fin 5] 100
    (by norm_num [hsum, F.lt])
    (by rw [hrem]; simp)
    (by
      rw [hrem, hsum]
      norm_num [distribute_surplus, calculate_remaining_demand,
        calculate_additional_capacity, calculate_surplus, F.sub, F.neg, F.add,
        F.pymin, F.lt, List.set])
  simp only [ProportionalAllocation.allocate, c1df, inputFrame,
    requiredColumnsPresent, demandsOf, limitsOf, extract_group_capacity,
    fillna, List.map, List.isEmpty]
  norm_num [ha, hstuck 100]

/-- Python min of two finite floats is the rational min. -/
theorem F.pymin_fin_fin (a b : ℚ) : F.pymin (F.fin a) (F.fin b) = F.fin (min a b) := by
  by_cases h : b < a
  · simp [F.pymin, F.lt, h, min_eq_right h.le]
  · simp [F.pymin, F.lt, h, min_eq_left (le_of_not_lt h)]

/-- Python min of a finite float and positive infinity. -/
theorem F.pymin_fin_pinf (a : ℚ) : F.pymin (F.fin a) F.pinf = F.fin a := by
  simp [F.pymin, F.lt]

/-- Float comparison is irreflexive (NaN < NaN is also false). -/
theorem F.lt_irrefl (x : F) : F.lt x x = false := by
  cases x <;> simp [F.lt]

/-- Addition of finite floats. -/
theorem F.add_fin (a b : ℚ) : F.add (F.fin a) (F.fin b) = F.fin (a + b) := rfl

/-- Subtraction of finite floats. -/
theorem F.sub_fin (a b : ℚ) : F.sub (F.fin a) (F.fin b) = F.fin (a - b) := by
  simp [F.sub, F.neg, F.add, sub_eq_add_neg]

/-- Multiplication of finite floats. -/
theorem F.mul_fin (a b : ℚ) : F.mul (F.fin a) (F.fin b) = F.fin (a * b) := rfl

/-- Division of finite floats with nonzero divisor. -/
theorem F.div_fin (a b : ℚ) (h : b ≠ 0) : F.div (F.fin a) (F.fin b) = F.fin (a / b) := by
  simp [F.div, h]

/-- Comparison of finite floats is the rational comparison. -/
theorem F.lt_fin_fin (a b : ℚ) : F.lt (F.fin a) (F.fin b) = decide (a < b) := rfl

/-- Anything plus NaN is NaN. -/
theorem F.add_nan (x : F) : F.add x F.nan = F.nan := by cases x <;> rfl

/-- NaN plus anything is NaN. -/
theorem F.nan_add (x : F) : F.add F.nan x = F.nan := by cases x <;> rfl

/-- Folding float addition over mapped finite values stays finite. -/
theorem F.foldl_add_fin (l : List ℚ) : ∀ c : ℚ,
    (l.map F.fin).foldl F.add (F.fin c) = F.fin (l.foldl (· + ·) c) := by
  induction l with
  | nil => intro c; rfl
  | cons x xs ih => intro c; simp only [List.map_cons, List.foldl_cons, F.add]; exact ih (c + x)

/-- Python sum of a list of finite floats is the rational sum. -/
theorem F.sumF_map_fin (l : List ℚ) : F.sumF (l.map F.fin) = F.fin l.sum := by
  rw [F.sumF, F.foldl_add_fin l 0, List.sum_eq_foldl]

/-- getD at an index inside the list is the element there. -/
theorem getD_eq_of_lt {α : Type} (l : List α) (d : α) {i : ℕ} (h : i < l.length) :
    l.getD i d = l[i] := List.getD_eq_getElem l d h

/-- getD past the end of the list is the default. -/
theorem getD_eq_of_le {α : Type} (l : List α) (d : α) {i : ℕ} (h : l.length ≤ i) :
    l.getD i d = d := by
  rw [List.getD_eq_getElem?_getD, List.getElem?_eq_none h]; rfl

/-- Lists of the same length that agree at every getD position are equal. -/
theorem list_ext_getD {α : Type} (l₁ l₂ : List α) (d : α) (hlen : l₁.length = l₂.length)
    (h : ∀ i, i < l₁.length → l₁.getD i d = l₂.getD i d) : l₁ = l₂ := by
  refine List.ext_getElem hlen (fun i h₁ h₂ => ?_)
  have := h i h₁
  rwa [getD_eq_of_lt _ _ h₁, getD_eq_of_lt _ _ h₂] at this

/-- A list whose getD values follow a function is the mapped range. -/
theorem eq_map_range {α : Type} (a : List α) (d : α) (n : ℕ) (g : ℕ → α)
    (hlen : a.length = n) (h : ∀ i < n, a.getD i d = g i) :
    a = (List.range n).map g := by
  refine List.ext_getElem (by simp [hlen]) (fun i h₁ h₂ => ?_)
  have hi : i < n := by simpa [hlen] using h₁
  rw [← getD_eq_of_lt a d h₁, h i hi]
  simp

/-- Sum of a function mapped over List.range as a Finset sum. -/
theorem sum_map_range (f : ℕ → ℚ) (n : ℕ) :
    ((List.range n).map f).sum = ∑ i in Finset.range n, f i := by
  induction n with
  | zero => simp
  | succ k ih =>
      rw [List.range_succ, List.map_append, List.sum_append, Finset.sum_range_succ, ih]
      simp

/-- A rational list sum as a Finset sum of its getD values. -/
theorem list_sum_eq_range_sum (l : List ℚ) :
    l.sum = ∑ i in Finset.range l.length, l.getD i 0 := by
  conv_lhs => rw [eq_map_range l 0 l.length (fun i => l.getD i 0) rfl (fun i _ => rfl)]
  exact sum_map_range _ _

/-- getD through set at a different index. -/
theorem getD_set_ne {α : Type} (l : List α) (i j : ℕ) (v d : α) (hij : i ≠ j) :
    (l.set i v).getD j d = l.getD j d := by
  rcases lt_or_ge j l.length with h | h
  · rw [getD_eq_of_lt _ _ (by simpa using h), getD_eq_of_lt _ _ h]
    exact List.getElem_set_ne hij _
  · rw [getD_eq_of_le _ _ (by simpa using h), getD_eq_of_le _ _ h]

/-- getD through set at the written index. -/
theorem getD_set_self {α : Type} (l : List α) (i : ℕ) (v d : α) (hi : i < l.length) :
    (l.set i v).getD i d = v := by
  rw [getD_eq_of_lt _ _ (by simpa using hi)]
  exact List.getElem_set_self _

/-- Strictly fewer elements pass a filter that is pointwise stronger and
fails on some element passing the weaker one. -/
theorem filter_length_lt {α : Type} (l : List α) (p q : α → Bool)
    (himp : ∀ x ∈ l, p x = true → q x = true) (x₀ : α) (hx : x₀ ∈ l)
    (hq : q x₀ = true) (hp : p x₀ = false) :
    (l.filter p).length < (l.filter q).length := by
  induction l with
  | nil => cases hx
  | cons a l ih =>
      have himp' : ∀ x ∈ l, p x = true → q x = true :=
        fun x hx => himp x (List.mem_cons_of_mem a hx)
      rcases List.mem_cons.mp hx with rfl | hx'
      · rw [List.filter_cons, List.filter_cons]
        simp only [hp, hq, if_false, if_true, Bool.false_eq_true, List.length_cons]
        have : (l.filter p).length ≤ (l.filter q).length := by
          rw [← List.countP_eq_length_filter, ← List.countP_eq_length_filter]
          exact List.countP_mono_left himp'
        omega
      · have ihl := ih himp' hx'
        rw [List.filter_cons, List.filter_cons]
        cases hpa : p a
        · cases hqa : q a <;> simp [hpa, hqa] <;> omega
        · have hqa : q a = true := himp a (List.mem_cons_self a l) hpa
          simp only [hpa, hqa, if_true, List.length_cons]
          omega

/-- Unfolding distribute_surplus over an empty worklist. -/
theorem distribute_surplus_nil (a : List F) (d : List ℚ) (lims : List F) (rd : ℚ) (s : F) :
    distribute_surplus a d lims [] rd s = a := rfl

/-- Unfolding distribute_surplus over a worklist head: the head index is
updated first, then the rest of the worklist runs on the updated list. -/
theorem distribute_surplus_cons (a : List F) (d : List ℚ) (lims : List F)
    (i : ℕ) (R : List ℕ) (rd : ℚ) (s : F) :
    distribute_surplus a d lims (i :: R) rd s =
      distribute_surplus
        (a.set i (F.pymin
          (F.add (a.getD i F.nan)
            (calculate_additional_capacity (d.getD i 0) rd s))
          (lims.getD i F.nan))) d lims R rd s := by
  simp [distribute_surplus, List.foldl_cons]

/-- distribute_surplus keeps the length of the allocation vector. -/
theorem distribute_surplus_length (a : List F) (d : List ℚ) (lims : List F)
    (R : List ℕ) (rd : ℚ) (s : F) :
    (distribute_surplus a d lims R rd s).length = a.length := by
  induction R generalizing a with
  | nil => rfl
  | cons i R ih =>
      rw [distribute_surplus_cons, ih]
      exact List.length_set ..

/-- Pointwise description of distribute_surplus: an index of the worklist
gets the capped increment, every other index is untouched.  Needs the
worklist to be duplicate-free and within bounds, which holds for the list
get_remaining_products produces. -/
theorem distribute_surplus_getD (a : List F) (d : List ℚ) (lims : List F)
    (R : List ℕ) (rd : ℚ) (s : F) (hnd : R.Nodup) (hR : ∀ i ∈ R, i < a.length)
    (j : ℕ) :
    (distribute_surplus a d lims R rd s).getD j F.nan =
      if j ∈ R then
        F.pymin (F.add (a.getD j F.nan)
          (calculate_additional_capacity (d.getD j 0) rd s)) (lims.getD j F.nan)
      else a.getD j F.nan := by
  induction R generalizing a with
  | nil => simp [distribute_surplus_nil]
  | cons i R ih =>
      obtain ⟨hiR, hndR⟩ := List.nodup_cons.mp hnd
      have hi : i < a.length := hR i (List.mem_cons_self i R)
      rw [distribute_surplus_cons]
      rw [ih _ hndR (fun k hk => by
        rw [List.length_set]; exact hR k (List.mem_cons_of_mem i hk))]
      by_cases hji : j = i
      · subst hji
        rw [getD_set_self _ _ _ _ hi]
        simp [hiR, List.mem_cons]
      · by_cases hjR : j ∈ R
        · simp only [hjR, if_true, List.mem_cons, hjR, or_true]
          rw [getD_set_ne _ _ _ _ _ (fun h => hji h.symm)]
        · have : ¬ j ∈ i :: R := by
            simp [List.mem_cons, hji, hjR]
          simp only [hjR, if_false, this]
          rw [getD_set_ne _ _ _ _ _ (fun h => hji h.symm)]

/-- Membership in the remaining-products list. -/
theorem mem_get_remaining (a lims : List F) (i : ℕ) :
    i ∈ get_remaining_products a lims ↔
      i < a.length ∧ F.lt (a.getD i F.nan) (lims.getD i F.nan) = true := by
  simp [get_remaining_products, List.mem_filter, List.mem_range]

/-- The remaining-products list has no duplicates. -/
theorem get_remaining_nodup (a lims : List F) :
    (get_remaining_products a lims).Nodup :=
  (List.nodup_range _).filter _

/-- Every remaining product is a position of the allocation vector. -/
theorem get_remaining_bound (a lims : List F) :
    ∀ i ∈ get_remaining_products a lims, i < a.length :=
  fun i hi => ((mem_get_remaining a lims i).mp hi).1

/-- There are at most as many remaining products as entities. -/
theorem get_remaining_length_le (a lims : List F) :
    (get_remaining_products a lims).length ≤ a.length := by
  have := List.length_filter_le
    (fun i => F.lt (a.getD i F.nan) (lims.getD i F.nan)) (List.range a.length)
  simpa [get_remaining_products] using this

/-- The filled limits of any row list are finite or positive infinity. -/
theorem goodLimits_limitsOf (rows : List Row) : GoodLimits (limitsOf rows) := by
  intro L hL
  obtain ⟨r, _, rfl⟩ := List.mem_map.mp hL
  cases h : r.individualLimit with
  | none => left; simp [fillna, h]
  | some v => right; exact ⟨v, by simp [fillna, h]⟩

/-- Length of the initial allocation. -/
theorem initial_allocation_length (d : List ℚ) (lims : List F) (C : ℚ) :
    (initial_allocation d lims C).length = min d.length lims.length := by
  simp [initial_allocation]

/-- Pointwise description of the initial allocation. -/
theorem initial_allocation_getD (d : List ℚ) (lims : List F) (C : ℚ) (i : ℕ)
    (hi : i < d.length) (hil : i < lims.length) :
    (initial_allocation d lims C).getD i F.nan =
      F.pymin (F.mul (F.div (F.fin (d.getD i 0)) (F.fin d.sum)) (F.fin C))
        (lims.getD i F.nan) := by
  have hlen : i < (initial_allocation d lims C).length := by
    rw [initial_allocation_length]; omega
  rw [getD_eq_of_lt _ _ hlen, getD_eq_of_lt _ _ hi, getD_eq_of_lt _ _ hil]
  simp [initial_allocation, List.getElem_zip]

/-- A cap-bounded entry is a finite value. -/
theorem capBounded_entry_fin (lims : List F) (a : List F)
    (hg : GoodLimits lims) (hcb : CapBounded lims a) (i : ℕ) (hi : i < a.length) :
    ∃ q : ℚ, a.getD i F.nan = F.fin q := by
  obtain ⟨hlen, hpt⟩ := hcb
  obtain ⟨t, ht⟩ := hpt i hi
  have hmem : lims.getD i F.nan ∈ lims := by
    rw [getD_eq_of_lt _ _ (by omega)]
    exact List.getElem_mem _
  rcases hg _ hmem with hL | ⟨l, hL⟩
  · exact ⟨t, by rw [ht, hL, F.pymin_fin_pinf]⟩
  · exact ⟨min t l, by rw [ht, hL, F.pymin_fin_fin]⟩

/-- A list all of whose entries are finite sums to a finite value. -/
theorem sumF_of_all_fin (a : List F) (h : ∀ i < a.length, ∃ q : ℚ, a.getD i F.nan = F.fin q) :
    F.sumF a = F.fin ((a.map finVal).sum) := by
  have heq : a = (a.map finVal).map F.fin := by
    refine List.ext_getElem (by simp) (fun i h₁ h₂ => ?_)
    obtain ⟨q, hq⟩ := h i h₁
    rw [getD_eq_of_lt _ _ h₁] at hq
    simp [hq, finVal]
  conv_lhs => rw [heq]
  rw [F.sumF_map_fin]

/-- Folding float addition from a NaN accumulator stays NaN. -/
theorem F.foldl_add_nan (l : List F) : l.foldl F.add F.nan = F.nan := by
  induction l with
  | nil => rfl
  | cons x xs ih => simpa [List.foldl_cons, F.nan_add] using ih

/-- A list containing NaN sums to NaN. -/
theorem F.sumF_nan (l : List F) (h : F.nan ∈ l) : F.sumF l = F.nan := by
  rw [F.sumF]
  obtain ⟨s, t, rfl⟩ := List.append_of_mem h
  rw [List.foldl_append, List.foldl_cons, F.add_nan, F.foldl_add_nan]

/-- A cap-bounded entry never exceeds its limit (float comparison). -/
theorem capBounded_le (lims : List F) (a : List F)
    (hg : GoodLimits lims) (hcb : CapBounded lims a) (i : ℕ) (hi : i < a.length) :
    F.le (a.getD i F.nan) (lims.getD i F.nan) = true := by
  obtain ⟨hlen, hpt⟩ := hcb
  obtain ⟨t, ht⟩ := hpt i hi
  have hmem : lims.getD i F.nan ∈ lims := by
    rw [getD_eq_of_lt _ _ (by omega)]
    exact List.getElem_mem _
  rcases hg _ hmem with hL | ⟨l, hL⟩
  · rw [ht, hL, F.pymin_fin_pinf]; rfl
  · rw [ht, hL, F.pymin_fin_fin]
    simp [F.le, min_le_right]

/-- distribute_surplus over the remaining products keeps the cap-bounded
invariant (whatever the remaining demand argument is). -/
theorem capBounded_distribute (d : List ℚ) (lims : List F) (C : ℚ) (a : List F) (rd : ℚ)
    (hg : GoodLimits lims) (hcb : CapBounded lims a) :
    CapBounded lims (distribute_surplus a d lims (get_remaining_products a lims) rd
      (calculate_surplus C (F.sumF a))) := by
  have hS := sumF_of_all_fin a (fun i hi => capBounded_entry_fin lims a hg hcb i hi)
  constructor
  · rw [distribute_surplus_length]; exact hcb.1
  · intro j hj
    rw [distribute_surplus_length] at hj
    rw [distribute_surplus_getD a d lims _ rd _ (get_remaining_nodup a lims)
      (get_remaining_bound a lims) j]
    by_cases hjR : j ∈ get_remaining_products a lims
    · obtain ⟨q, hq⟩ := capBounded_entry_fin lims a hg hcb j hj
      rw [if_pos hjR, hq, hS]
      rw [calculate_surplus, F.sub_fin]
      rw [calculate_additional_capacity]
      by_cases hrd : rd = 0
      · rw [if_pos hrd, F.add_fin]
        exact ⟨q + 0, rfl⟩
      · rw [if_neg hrd, F.mul_fin, F.add_fin]
        exact ⟨_, rfl⟩
    · rw [if_neg hjR]
      exact hcb.2 j hj

/-- One loop-body execution keeps the cap-bounded invariant. -/
theorem capBounded_step (d : List ℚ) (lims : List F) (C : ℚ) (a : List F)
    (hg : GoodLimits lims) (hcb : CapBounded lims a) :
    CapBounded lims (adjust_step a d lims C) := by
  rw [adjust_step]
  by_cases hguard : F.lt (F.sumF a) (F.fin C) = true
  · rw [if_pos hguard]
    by_cases hR : get_remaining_products a lims = []
    · rw [if_pos hR]; exact hcb
    · rw [if_neg hR]
      exact capBounded_distribute d lims C a _ hg hcb
  · rw [if_neg hguard]; exact hcb

/-- Every iterate of the loop body keeps the cap-bounded invariant. -/
theorem capBounded_iter (d : List ℚ) (lims : List F) (C : ℚ) (a : List F) (k : ℕ)
    (hg : GoodLimits lims) (hcb : CapBounded lims a) :
    CapBounded lims (adjust_iter k a d lims C) := by
  induction k generalizing a with
  | zero => exact hcb
  | succ n ih => exact ih _ (capBounded_step d lims C a hg hcb)

/-- A terminating run of the while loop keeps the cap-bounded invariant. -/
theorem capBounded_adjust (d : List ℚ) (lims : List F) (C : ℚ)
    (hg : GoodLimits lims) :
    ∀ fuel (a r : List F), CapBounded lims a →
      adjust_allocation fuel a d lims C = some r → CapBounded lims r := by
  intro fuel
  induction fuel with
  | zero =>
      intro a r hcb h
      rw [adjust_allocation] at h
      by_cases hguard : F.lt (F.sumF a) (F.fin C) = true
      · rw [if_pos hguard] at h; cases h
      · rw [if_neg hguard] at h; cases h; exact hcb
  | succ n ih =>
      intro a r hcb h
      rw [adjust_allocation] at h
      by_cases hguard : F.lt (F.sumF a) (F.fin C) = true
      · rw [if_pos hguard] at h
        by_cases hR : get_remaining_products a lims = []
        · rw [if_pos hR] at h; cases h; exact hcb
        · rw [if_neg hR] at h
          exact ih _ r (capBounded_distribute d lims C a _ hg hcb) h
      · rw [if_neg hguard] at h; cases h; exact hcb

/-- A terminating run of the while loop keeps the vector length. -/
theorem adjust_allocation_length (d : List ℚ) (lims : List F) (C : ℚ) :
    ∀ fuel (a r : List F), adjust_allocation fuel a d lims C = some r →
      r.length = a.length := by
  intro fuel
  induction fuel with
  | zero =>
      intro a r h
      rw [adjust_allocation] at h
      by_cases hguard : F.lt (F.sumF a) (F.fin C) = true
      · rw [if_pos hguard] at h; cases h
      · rw [if_neg hguard] at h; cases h; rfl
  | succ n ih =>
      intro a r h
      rw [adjust_allocation] at h
      by_cases hguard : F.lt (F.sumF a) (F.fin C) = true
      · rw [if_pos hguard] at h
        by_cases hR : get_remaining_products a lims = []
        · rw [if_pos hR] at h; cases h; rfl
        · rw [if_neg hR] at h
          have := ih _ r h
          rwa [distribute_surplus_length] at this
      · rw [if_neg hguard] at h; cases h; rfl

/-- Python min starting from NaN stays NaN. -/
theorem F.pymin_nan (y : F) : F.pymin F.nan y = F.nan := by
  cases y <;> simp [F.pymin, F.lt]

/-- NaN times anything is NaN. -/
theorem F.nan_mul (x : F) : F.mul F.nan x = F.nan := by cases x <;> rfl

/-- One loop-body execution keeps the vector length. -/
theorem adjust_step_length (a : List F) (d : List ℚ) (lims : List F) (C : ℚ) :
    (adjust_step a d lims C).length = a.length := by
  rw [adjust_step]
  by_cases hguard : F.lt (F.sumF a) (F.fin C) = true
  · rw [if_pos hguard]
    by_cases hR : get_remaining_products a lims = []
    · rw [if_pos hR]
    · rw [if_neg hR, distribute_surplus_length]
  · rw [if_neg hguard]

/-- Iterating the loop body keeps the vector length. -/
theorem adjust_iter_length (k : ℕ) (a : List F) (d : List ℚ) (lims : List F) (C : ℚ) :
    (adjust_iter k a d lims C).length = a.length := by
  induction k generalizing a with
  | zero => rfl
  | succ n ih => rw [adjust_iter, ih, adjust_step_length]

/-- The k+1st iterate is the loop body applied to the kth iterate. -/
theorem adjust_iter_succ (k : ℕ) (a : List F) (d : List ℚ) (lims : List F) (C : ℚ) :
    adjust_iter (k + 1) a d lims C =
      adjust_step (adjust_iter k a d lims C) d lims C := by
  induction k generalizing a with
  | zero => rfl
  | succ n ih => rw [adjust_iter, ih, adjust_iter]

/-- The initial allocation is cap-bounded whenever the total demand is not
zero (so that no entry is NaN). -/
theorem capBounded_initial (d : List ℚ) (lims : List F) (C : ℚ)
    (hld : lims.length = d.length) (hD : d.sum ≠ 0) :
    CapBounded lims (initial_allocation d lims C) := by
  constructor
  · rw [initial_allocation_length, hld]; simp
  · intro i hi
    rw [initial_allocation_length, hld, min_self] at hi
    rw [initial_allocation_getD d lims C i (by omega) (by omega)]
    rw [F.div_fin _ _ hD, F.mul_fin]
    exact ⟨_, rfl⟩

/-- With non-negative demands, one loop-body execution never decreases any
entry of the allocation vector (float comparison, so an untouched NaN
entry also counts as not decreased). -/
theorem step_no_decrease (d : List ℚ) (lims : List F) (C : ℚ) (a : List F)
    (hg : GoodLimits lims) (hd : NonnegDemands d)
    (hinv : CapBounded lims a ∨ F.lt (F.sumF a) (F.fin C) = false) :
    ∀ i, F.lt ((adjust_step a d lims C).getD i F.nan) (a.getD i F.nan) = false := by
  intro i
  rcases hinv with hcb | hguard
  · rw [adjust_step]
    by_cases hguard : F.lt (F.sumF a) (F.fin C) = true
    · rw [if_pos hguard]
      by_cases hR : get_remaining_products a lims = []
      · rw [if_pos hR]; exact F.lt_irrefl _
      · rw [if_neg hR]
        rcases lt_or_ge i a.length with hi | hi
        · rw [distribute_surplus_getD a d lims _ _ _ (get_remaining_nodup a lims)
            (get_remaining_bound a lims) i]
          by_cases hiR : i ∈ get_remaining_products a lims
          · rw [if_pos hiR]
            obtain ⟨q, hq⟩ := capBounded_entry_fin lims a hg hcb i hi
            have hS := sumF_of_all_fin a
              (fun j hj => capBounded_entry_fin lims a hg hcb j hj)
            rw [hq, hS]
            rw [hS, F.lt_fin_fin] at hguard
            have hsur : (a.map finVal).sum < C := of_decide_eq_true hguard
            rw [calculate_surplus, F.sub_fin]
            have hrd : 0 ≤ calculate_remaining_demand d (get_remaining_products a lims) := by
              refine List.sum_nonneg (fun x hx => ?_)
              obtain ⟨j, _, rfl⟩ := List.mem_map.mp hx
              rcases lt_or_ge j d.length with hj | hj
              · rw [getD_eq_of_lt _ _ hj]
                exact hd _ (List.getElem_mem hj)
              · rw [getD_eq_of_le _ _ hj]
            have hdi : 0 ≤ d.getD i 0 := by
              rcases lt_or_ge i d.length with hj | hj
              · rw [getD_eq_of_lt _ _ hj]
                exact hd _ (List.getElem_mem hj)
              · rw [getD_eq_of_le _ _ hj]
            have hv : ∃ v : ℚ, 0 ≤ v ∧
                calculate_additional_capacity (d.getD i 0)
                  (calculate_remaining_demand d (get_remaining_products a lims))
                  (F.fin (C - (a.map finVal).sum)) = F.fin v := by
              rw [calculate_additional_capacity]
              by_cases hz : calculate_remaining_demand d (get_remaining_products a lims) = 0
              · exact ⟨0, le_refl 0, by rw [if_pos hz]⟩
              · refine ⟨_, ?_, by rw [if_neg hz, F.mul_fin]⟩
                have : 0 < calculate_remaining_demand d (get_remaining_products a lims) :=
                  lt_of_le_of_ne hrd (Ne.symm hz)
                have h1 : 0 ≤ d.getD i 0 / calculate_remaining_demand d
                    (get_remaining_products a lims) := div_nonneg hdi this.le
                have h2 : 0 ≤ C - (a.map finVal).sum := by linarith
                exact mul_nonneg h1 h2
            obtain ⟨v, hv0, hveq⟩ := hv
            rw [hveq, F.add_fin]
            have hmem : lims.getD i F.nan ∈ lims := by
              rw [getD_eq_of_lt _ _ (by rw [hcb.1] at hi; omega)]
              exact List.getElem_mem _
            rcases hg _ hmem with hL | ⟨l, hL⟩
            · rw [hL, F.pymin_fin_pinf, F.lt_fin_fin]
              simp only [decide_eq_false_iff_not, not_lt]
              linarith
            · obtain ⟨t, ht⟩ := hcb.2 i hi
              rw [hL] at ht ⊢
              rw [F.pymin_fin_fin] at ht
              rw [hq] at ht
              have hql : q ≤ l := by
                have := (F.fin.injEq ..).mp ht
                rw [this]; exact min_le_right t l
              rw [F.pymin_fin_fin, F.lt_fin_fin]
              simp only [decide_eq_false_iff_not, not_lt, le_min_iff]
              constructor
              · linarith
              · exact hql
          · rw [if_neg hiR]; exact F.lt_irrefl _
        · rw [getD_eq_of_le _ _ (by rw [distribute_surplus_length]; omega),
            getD_eq_of_le _ _ hi]
          rfl
    · rw [if_neg hguard]; exact F.lt_irrefl _
  · rw [adjust_step, if_neg (by rw [hguard]; simp)]
    exact F.lt_irrefl _

/-- Unfolding a successful allocate call on a non-empty frame: validation
passed, the loop exited with some allocation vector, and the returned
frame is the input frame with the three computed columns written in. -/
theorem allocate_ok_some (fuel : ℕ) (df out : DataFrame)
    (h : ProportionalAllocation.allocate fuel (PFrame.reg df) =
      Except.ok (some (PFrame.reg out)))
    (hne : df.rows ≠ []) :
    requiredColumnsPresent df = true ∧
    ∃ A, adjust_allocation fuel
        (initial_allocation (demandsOf df.rows) (limitsOf df.rows)
          (extract_group_capacity df.rows))
        (demandsOf df.rows) (limitsOf df.rows) (extract_group_capacity df.rows) = some A ∧
      out = { df with
        allocationCol := some A,
        newAllocShareCol := some (calculate_allocation_share A (demandsOf df.rows)),
        newOverlimitCol := some (new_overlimit A df.rows) } := by
  rw [ProportionalAllocation.allocate] at h
  by_cases hreq : requiredColumnsPresent df = true
  · rw [if_neg (by simp [hreq])] at h
    rw [if_neg (by simpa [List.isEmpty_iff] using hne)] at h
    refine ⟨hreq, ?_⟩
    simp only [] at h
    cases hadj : adjust_allocation fuel
        (initial_allocation (demandsOf df.rows) (limitsOf df.rows)
          (extract_group_capacity df.rows))
        (demandsOf df.rows) (limitsOf df.rows) (extract_group_capacity df.rows) with
    | none => rw [hadj] at h; simp at h
    | some A =>
        rw [hadj] at h
        simp only [Except.ok.injEq, Option.some.injEq, PFrame.reg.injEq] at h
        exact ⟨A, rfl, h.symm⟩
  · rw [if_pos (by simp [hreq])] at h
    simp at h

/-- At the start of the loop the allocation vector is cap-bounded, or
(when the total demand is zero, so the entries are NaN) the loop guard is
already false. -/
theorem inv10_initial (d : List ℚ) (lims : List F) (C : ℚ)
    (hld : lims.length = d.length) (hd : NonnegDemands d) :
    CapBounded lims (initial_allocation d lims C) ∨
      F.lt (F.sumF (initial_allocation d lims C)) (F.fin C) = false := by
  by_cases hD : d.sum = 0
  · rcases List.eq_nil_or_concat d with rfl | hne'
    · left
      refine ⟨by simp [initial_allocation_length, hld], fun i hi => ?_⟩
      rw [initial_allocation_length, hld] at hi
      simp at hi
    · have hdne : d ≠ [] := by
        obtain ⟨l, b, rfl⟩ := hne'
        simp
      have hdpos : 0 < d.length := List.length_pos.mpr hdne
      have hz : ∀ x ∈ d, x = 0 :=
        fun x hx => List.all_zero_of_le_zero_le_of_sum_eq_zero hd hD hx
      right
      have hlen0 : 0 < (initial_allocation d lims C).length := by
        rw [initial_allocation_length]
        omega
      have h0 : (initial_allocation d lims C).getD 0 F.nan = F.nan := by
        rw [initial_allocation_getD d lims C 0 (by omega) (by omega)]
        have hd0 : d.getD 0 0 = 0 := by
          rw [getD_eq_of_lt _ _ hdpos]
          exact hz _ (List.getElem_mem hdpos)
        rw [hd0, hD]
        simp [F.div, F.nan_mul, F.pymin_nan]
      have hmem : F.nan ∈ initial_allocation d lims C := by
        rw [getD_eq_of_lt _ _ hlen0] at h0
        rw [← h0]
        exact List.getElem_mem hlen0
      rw [F.sumF_nan _ hmem]
      rfl
  · left
    exact capBounded_initial d lims C hld hD

/-- Lengths of the extracted columns. -/
theorem demandsOf_length (rows : List Row) : (demandsOf rows).length = rows.length := by
  simp [demandsOf]

/-- Length of the filled limits column. -/
theorem limitsOf_length (rows : List Row) : (limitsOf rows).length = rows.length := by
  simp [limitsOf]

/-- C2, amended: with non-negative inputs and a positive total demand (the
claim as frozen also covers zero total demand, where the code produces NaN
allocations and the comparison fails; see the counterexample), every
entity's allocation is at most its filled limit, after every intermediate
iteration of the redistribution loop and in the final result of allocate. -/
theorem C2_cap_respect_positive_demand
    (df : DataFrame) (fuel k i : ℕ)
    (_hd : ∀ r ∈ df.rows, 0 ≤ r.capacity)
    (_hl : ∀ r ∈ df.rows, ∀ l : ℚ, r.individualLimit = some l → 0 ≤ l)
    (_hC : 0 ≤ extract_group_capacity df.rows)
    (hD : (demandsOf df.rows).sum ≠ 0)
    (hi : i < df.rows.length) :
    F.le ((adjust_iter k (initial_allocation (demandsOf df.rows) (limitsOf df.rows)
          (extract_group_capacity df.rows)) (demandsOf df.rows) (limitsOf df.rows)
          (extract_group_capacity df.rows)).getD i F.nan)
        ((limitsOf df.rows).getD i F.nan) = true ∧
    ∀ out al, ProportionalAllocation.allocate fuel (PFrame.reg df) =
        Except.ok (some (PFrame.reg out)) →
      out.allocationCol = some al →
      F.le (al.getD i F.nan) ((limitsOf df.rows).getD i F.nan) = true := by
  have hld : (limitsOf df.rows).length = (demandsOf df.rows).length := by
    rw [limitsOf_length, demandsOf_length]
  have hg := goodLimits_limitsOf df.rows
  have hcb0 := capBounded_initial (demandsOf df.rows) (limitsOf df.rows)
    (extract_group_capacity df.rows) hld hD
  constructor
  · have hcbk := capBounded_iter (demandsOf df.rows) (limitsOf df.rows)
      (extract_group_capacity df.rows) _ k hg hcb0
    apply capBounded_le _ _ hg hcbk
    rw [adjust_iter_length, initial_allocation_length, demandsOf_length,
      limitsOf_length, min_self]
    exact hi
  · intro out al h hal
    have hne : df.rows ≠ [] := by
      intro hcon
      rw [hcon] at hi
      simp at hi
    obtain ⟨hreq, A, hadj, hout⟩ := allocate_ok_some fuel df out h hne
    have hcbA := capBounded_adjust (demandsOf df.rows) (limitsOf df.rows)
      (extract_group_capacity df.rows) hg fuel _ A hcb0 hadj
    have hAal : al = A := by
      rw [hout] at hal
      exact (by simpa using hal : A = al).symm
    subst hAal
    apply capBounded_le _ _ hg hcbA
    rw [adjust_allocation_length (demandsOf df.rows) (limitsOf df.rows)
        (extract_group_capacity df.rows) fuel _ al hadj,
      initial_allocation_length, demandsOf_length, limitsOf_length, min_self]
    exact hi

/-- Witness for C2 at the concrete frame c2wdf (one entity, demand 5,
limit 3, pool 10), first iterate, entity 0. -/
theorem C2_cap_respect_witness :
    F.le ((adjust_iter 1 (initial_allocation (demandsOf c2wdf.rows) (limitsOf c2wdf.rows)
          (extract_group_capacity c2wdf.rows)) (demandsOf c2wdf.rows) (limitsOf c2wdf.rows)
          (extract_group_capacity c2wdf.rows)).getD 0 F.nan)
        ((limitsOf c2wdf.rows).getD 0 F.nan) = true ∧
    ∀ out al, ProportionalAllocation.allocate 2 (PFrame.reg c2wdf) =
        Except.ok (some (PFrame.reg out)) →
      out.allocationCol = some al →
      F.le (al.getD 0 F.nan) ((limitsOf c2wdf.rows).getD 0 F.nan) = true :=
  C2_cap_respect_positive_demand c2wdf 2 1 0
    (by norm_num [c2wdf, inputFrame])
    (by norm_num [c2wdf, inputFrame])
    (by norm_num [c2wdf, inputFrame, extract_group_capacity])
    (by norm_num [c2wdf, inputFrame, demandsOf])
    (by norm_num [c2wdf, inputFrame])

/-- Counterexample to C2 as frozen: the all-zero-demand input c4df is
non-negative, yet the final allocation entry is NaN and the float
comparison NaN at-most 5 is false, so allocated at-most limit fails
there (fallout of the same 0/0 slip recorded for C4). -/
theorem C2_cap_respect_counterexample :
    allocResult (ProportionalAllocation.allocate 1 (PFrame.reg c4df)) = some [F.nan, F.nan] ∧
      F.le F.nan (fillna (some 5)) = false := by
  constructor
  · norm_num [ProportionalAllocation.allocate, c4df, inputFrame, allocResult,
      requiredColumnsPresent, demandsOf, limitsOf, extract_group_capacity,
      fillna, initial_allocation, adjust_allocation, F.div, F.mul, F.pymin,
      F.lt, F.sumF, F.add]
  · rfl

/-- C10: with non-negative demands, limits and pool, no entity's
allocation value ever decreases from one redistribution-loop iteration to
the next (each update is min(allocation + addition, limit) with addition
at least 0 and allocation at most the limit already). -/
theorem C10_alloc_never_decreases
    (df : DataFrame) (k i : ℕ)
    (hd : ∀ r ∈ df.rows, 0 ≤ r.capacity)
    (_hl : ∀ r ∈ df.rows, ∀ l : ℚ, r.individualLimit = some l → 0 ≤ l)
    (_hC : 0 ≤ extract_group_capacity df.rows) :
    F.lt ((adjust_iter (k + 1) (initial_allocation (demandsOf df.rows) (limitsOf df.rows)
          (extract_group_capacity df.rows)) (demandsOf df.rows) (limitsOf df.rows)
          (extract_group_capacity df.rows)).getD i F.nan)
        ((adjust_iter k (initial_allocation (demandsOf df.rows) (limitsOf df.rows)
          (extract_group_capacity df.rows)) (demandsOf df.rows) (limitsOf df.rows)
          (extract_group_capacity df.rows)).getD i F.nan) = false := by
  have hld : (limitsOf df.rows).length = (demandsOf df.rows).length := by
    rw [limitsOf_length, demandsOf_length]
  have hg := goodLimits_limitsOf df.rows
  have hnn : NonnegDemands (demandsOf df.rows) := by
    intro x hx
    obtain ⟨r, hr, rfl⟩ := List.mem_map.mp hx
    exact hd r hr
  have hinv : ∀ m, CapBounded (limitsOf df.rows)
      (adjust_iter m (initial_allocation (demandsOf df.rows) (limitsOf df.rows)
        (extract_group_capacity df.rows)) (demandsOf df.rows) (limitsOf df.rows)
        (extract_group_capacity df.rows)) ∨
      F.lt (F.sumF (adjust_iter m (initial_allocation (demandsOf df.rows) (limitsOf df.rows)
        (extract_group_capacity df.rows)) (demandsOf df.rows) (limitsOf df.rows)
        (extract_group_capacity df.rows))) (F.fin (extract_group_capacity df.rows)) = false := by
    intro m
    induction m with
    | zero => exact inv10_initial _ _ _ hld hnn
    | succ n ih =>
        rw [adjust_iter_succ]
        rcases ih with hcb | hguard
        · left
          exact capBounded_step _ _ _ _ hg hcb
        · right
          rw [adjust_step, if_neg (by rw [hguard]; simp)]
          exact hguard
  rw [adjust_iter_succ]
  exact step_no_decrease _ _ _ _ hg hnn (hinv k) i

/-- Witness for C10 at the concrete frame c10wdf (demands [100, 1], limits
[1, 1000], pool 50), where the first loop iteration raises entity 1 from
50/101 to 49. -/
theorem C10_alloc_never_decreases_witness :
    F.lt ((adjust_iter 1 (initial_allocation (demandsOf c10wdf.rows) (limitsOf c10wdf.rows)
          (extract_group_capacity c10wdf.rows)) (demandsOf c10wdf.rows) (limitsOf c10wdf.rows)
          (extract_group_capacity c10wdf.rows)).getD 1 F.nan)
        ((adjust_iter 0 (initial_allocation (demandsOf c10wdf.rows) (limitsOf c10wdf.rows)
          (extract_group_capacity c10wdf.rows)) (demandsOf c10wdf.rows) (limitsOf c10wdf.rows)
          (extract_group_capacity c10wdf.rows)).getD 1 F.nan) = false :=
  C10_alloc_never_decreases c10wdf 0 1
    (by norm_num [c10wdf, inputFrame])
    (by norm_num [c10wdf, inputFrame])
    (by norm_num [c10wdf, inputFrame, extract_group_capacity])

/-- A position of a good limits list is finite or positive infinity. -/
theorem limit_cases (lims : List F) (hg : GoodLimits lims) (i : ℕ) (hi : i < lims.length) :
    lims.getD i F.nan = F.pinf ∨ ∃ l : ℚ, lims.getD i F.nan = F.fin l := by
  have hmem : lims.getD i F.nan ∈ lims := by
    rw [getD_eq_of_lt _ _ hi]
    exact List.getElem_mem _
  exact hg _ hmem

/-- The water-filling entry at a finite limit. -/
theorem wEntry_of_fin (d : List ℚ) (lims : List F) (mu : ℚ) (i : ℕ) (l : ℚ)
    (h : lims.getD i F.nan = F.fin l) :
    wEntry d lims mu i = min (mu * d.getD i 0) l := by
  rw [wEntry, h]

/-- The water-filling entry at an unbounded limit. -/
theorem wEntry_of_pinf (d : List ℚ) (lims : List F) (mu : ℚ) (i : ℕ)
    (h : lims.getD i F.nan = F.pinf) :
    wEntry d lims mu i = mu * d.getD i 0 := by
  rw [wEntry, h]

/-- The water-filling entry never exceeds the proportional amount. -/
theorem wEntry_le_mul (d : List ℚ) (lims : List F) (mu : ℚ) (i : ℕ) :
    wEntry d lims mu i ≤ mu * d.getD i 0 := by
  cases h : lims.getD i F.nan with
  | fin l => rw [wEntry_of_fin d lims mu i l h]; exact min_le_left _ _
  | pinf => rw [wEntry_of_pinf d lims mu i h]
  | ninf => rw [wEntry, h]
  | nan => rw [wEntry, h]

/-- The water-filling total at multiplier mu is at most mu times the total
demand. -/
theorem wSum_le_mul_sum (d : List ℚ) (lims : List F) (mu : ℚ) :
    wSum d lims mu d.length ≤ mu * d.sum := by
  rw [wSum, list_sum_eq_range_sum d, Finset.mul_sum]
  exact Finset.sum_le_sum (fun i _ => wEntry_le_mul d lims mu i)

/-- The initial allocation is the water-filling profile at multiplier
pool / total demand. -/
theorem isWater_initial (d : List ℚ) (lims : List F) (C : ℚ)
    (hg : GoodLimits lims) (hld : lims.length = d.length) (hD : d.sum ≠ 0) :
    IsWater d lims (C / d.sum) (initial_allocation d lims C) := by
  constructor
  · rw [initial_allocation_length, hld, min_self]
  · intro i hi
    rw [initial_allocation_getD d lims C i hi (by omega)]
    rw [F.div_fin _ _ hD, F.mul_fin]
    have harith : d.getD i 0 / d.sum * C = C / d.sum * d.getD i 0 := by ring
    rw [harith]
    rcases limit_cases lims hg i (by omega) with h | ⟨l, h⟩
    · rw [h, F.pymin_fin_pinf, wEntry_of_pinf d lims _ i h]
    · rw [h, F.pymin_fin_fin, wEntry_of_fin d lims _ i l h]

/-- Under the water-filling invariant the float sum of the allocation
vector is the finite water-filling total. -/
theorem isWater_sumF (d : List ℚ) (lims : List F) (mu : ℚ) (a : List F)
    (hw : IsWater d lims mu a) :
    F.sumF a = F.fin (wSum d lims mu d.length) := by
  have heq : a = (List.range d.length).map (fun i => F.fin (wEntry d lims mu i)) :=
    eq_map_range a F.nan d.length _ hw.1 hw.2
  rw [heq]
  have h2 : (List.range d.length).map (fun i => F.fin (wEntry d lims mu i)) =
      ((List.range d.length).map (fun i => wEntry d lims mu i)).map F.fin := by
    rw [List.map_map]
    rfl
  rw [h2, F.sumF_map_fin, sum_map_range, wSum]

/-- Membership in the remaining products under the invariant. -/
theorem isWater_mem_remaining (d : List ℚ) (lims : List F) (mu : ℚ) (a : List F)
    (hw : IsWater d lims mu a) (i : ℕ) :
    i ∈ get_remaining_products a lims ↔
      i < d.length ∧ F.lt (F.fin (wEntry d lims mu i)) (lims.getD i F.nan) = true := by
  rw [mem_get_remaining, hw.1]
  constructor
  · rintro ⟨h1, h2⟩
    rw [hw.2 i h1] at h2
    exact ⟨h1, h2⟩
  · rintro ⟨h1, h2⟩
    rw [hw.2 i h1]
    exact ⟨h1, h2⟩

/-- A remaining product sits strictly below its cap, so its entry is the
uncapped proportional amount. -/
theorem remaining_wEntry (d : List ℚ) (lims : List F) (mu : ℚ) (a : List F)
    (hg : GoodLimits lims) (hld : lims.length = d.length)
    (hw : IsWater d lims mu a) (i : ℕ)
    (hi : i ∈ get_remaining_products a lims) :
    wEntry d lims mu i = mu * d.getD i 0 ∧
      ∀ l : ℚ, lims.getD i F.nan = F.fin l → mu * d.getD i 0 < l := by
  obtain ⟨hin, hlt⟩ := (isWater_mem_remaining d lims mu a hw i).mp hi
  rcases limit_cases lims hg i (by omega) with h | ⟨l, h⟩
  · refine ⟨wEntry_of_pinf d lims mu i h, fun l hl => ?_⟩
    rw [h] at hl
    cases hl
  · rw [h, F.lt_fin_fin] at hlt
    have hwl : wEntry d lims mu i < l := of_decide_eq_true hlt
    rw [wEntry_of_fin d lims mu i l h] at hwl
    have hmul_lt : mu * d.getD i 0 < l := by
      rcases le_or_lt (mu * d.getD i 0) l with hc | hc
      · rwa [min_eq_left hc] at hwl
      · rw [min_eq_right hc.le] at hwl
        exact absurd hwl (lt_irrefl l)
    refine ⟨?_, fun l' hl' => ?_⟩
    · rw [wEntry_of_fin d lims mu i l h]
      exact min_eq_left hmul_lt.le
    · rw [h] at hl'
      injection hl' with hll
      rw [← hll]
      exact hmul_lt

/-- An entity that is not remaining is exactly at a finite cap that the
proportional amount has reached. -/
theorem capped_wEntry (d : List ℚ) (lims : List F) (mu : ℚ) (a : List F)
    (hg : GoodLimits lims) (hld : lims.length = d.length)
    (hw : IsWater d lims mu a) (i : ℕ) (hi : i < d.length)
    (hiR : i ∉ get_remaining_products a lims) :
    ∃ l : ℚ, lims.getD i F.nan = F.fin l ∧ wEntry d lims mu i = l ∧
      l ≤ mu * d.getD i 0 := by
  have hnot := (not_iff_not.mpr (isWater_mem_remaining d lims mu a hw i)).mp hiR
  rcases limit_cases lims hg i (by omega) with h | ⟨l, h⟩
  · exfalso
    exact hnot ⟨hi, by rw [h]; rfl⟩
  · refine ⟨l, h, ?_, ?_⟩
    · rw [wEntry_of_fin d lims mu i l h]
      have hge : l ≤ min (mu * d.getD i 0) l := by
        by_contra hcon
        push_neg at hcon
        exact hnot ⟨hi, by
          rw [wEntry_of_fin d lims mu i l h, h, F.lt_fin_fin]
          exact decide_eq_true hcon⟩
      exact le_antisymm (min_le_right _ _) hge
    · by_contra hcon
      push_neg at hcon
      refine hnot ⟨hi, ?_⟩
      rw [wEntry_of_fin d lims mu i l h, h, F.lt_fin_fin]
      exact decide_eq_true (by rw [min_eq_left hcon.le]; exact hcon)

/-- A capped entity stays exactly at its cap at any larger multiplier. -/
theorem capped_preserved (d : List ℚ) (lims : List F) (mu mu' : ℚ) (a : List F)
    (hg : GoodLimits lims) (hld : lims.length = d.length) (hd : NonnegDemands d)
    (_hmu : 0 ≤ mu) (hle : mu ≤ mu')
    (hw : IsWater d lims mu a) (i : ℕ) (hi : i < d.length)
    (hiR : i ∉ get_remaining_products a lims) :
    wEntry d lims mu' i = wEntry d lims mu i := by
  obtain ⟨l, hlim, hval, hcap⟩ := capped_wEntry d lims mu a hg hld hw i hi hiR
  have hdi : 0 ≤ d.getD i 0 := by
    rcases lt_or_ge i d.length with hj | hj
    · rw [getD_eq_of_lt _ _ hj]
      exact hd _ (List.getElem_mem hj)
    · rw [getD_eq_of_le _ _ hj]
  have : l ≤ mu' * d.getD i 0 :=
    le_trans hcap (mul_le_mul_of_nonneg_right hle hdi)
  rw [wEntry_of_fin d lims mu' i l hlim, hval, min_eq_right this]

/-- The remaining demand over any worklist of non-negative demands is
non-negative. -/
theorem remaining_demand_nonneg (d : List ℚ) (hd : NonnegDemands d) (R : List ℕ) :
    0 ≤ calculate_remaining_demand d R := by
  refine List.sum_nonneg (fun x hx => ?_)
  obtain ⟨j, _, rfl⟩ := List.mem_map.mp hx
  rcases lt_or_ge j d.length with hj | hj
  · rw [getD_eq_of_lt _ _ hj]
    exact hd _ (List.getElem_mem hj)
  · rw [getD_eq_of_le _ _ hj]

/-- The Finset sum of demands over the remaining indices is the remaining
demand the code computes. -/
theorem filter_sum_eq_remaining (d : List ℚ) (a lims : List F) (n : ℕ)
    (hn : a.length = n) :
    ∑ i in (Finset.range n).filter (fun i => i ∈ get_remaining_products a lims),
        d.getD i 0 =
      calculate_remaining_demand d (get_remaining_products a lims) := by
  rw [calculate_remaining_demand, ← List.sum_toFinset _ (get_remaining_nodup a lims)]
  refine Finset.sum_congr ?_ (fun _ _ => rfl)
  ext i
  simp only [Finset.mem_filter, Finset.mem_range, List.mem_toFinset]
  constructor
  · rintro ⟨_, h⟩
    exact h
  · intro h
    exact ⟨by rw [← hn]; exact get_remaining_bound a lims i h, h⟩

/-- Splitting the water-filling total at a larger multiplier: entities off
the remaining list keep their value, so the change concentrates on the
remaining ones. -/
theorem wSum_split (d : List ℚ) (lims : List F) (mu mu' : ℚ) (a : List F)
    (hg : GoodLimits lims) (hld : lims.length = d.length) (hd : NonnegDemands d)
    (hmu : 0 ≤ mu) (hle : mu ≤ mu') (hw : IsWater d lims mu a) :
    wSum d lims mu' d.length =
      wSum d lims mu d.length +
        ∑ i in (Finset.range d.length).filter
            (fun i => i ∈ get_remaining_products a lims),
          (wEntry d lims mu' i - wEntry d lims mu i) := by
  rw [wSum, wSum]
  rw [← Finset.sum_filter_add_sum_filter_not (Finset.range d.length)
    (fun i => i ∈ get_remaining_products a lims) (fun i => wEntry d lims mu' i)]
  rw [← Finset.sum_filter_add_sum_filter_not (Finset.range d.length)
    (fun i => i ∈ get_remaining_products a lims) (fun i => wEntry d lims mu i)]
  have hoff : ∑ i in (Finset.range d.length).filter
      (fun i => ¬ i ∈ get_remaining_products a lims), wEntry d lims mu' i =
      ∑ i in (Finset.range d.length).filter
        (fun i => ¬ i ∈ get_remaining_products a lims), wEntry d lims mu i := by
    refine Finset.sum_congr rfl (fun i hi => ?_)
    simp only [Finset.mem_filter, Finset.mem_range] at hi
    exact capped_preserved d lims mu mu' a hg hld hd hmu hle hw i hi.1 hi.2
  rw [hoff, Finset.sum_sub_distrib]
  ring

/-- The water-filling total after one redistribution round stays at most
the pool: each remaining entity receives at most its proportional share of
the surplus. -/
theorem wSum_step_le (d : List ℚ) (lims : List F) (C : ℚ) (mu : ℚ) (a : List F)
    (hg : GoodLimits lims) (hld : lims.length = d.length) (hd : NonnegDemands d)
    (hmu : 0 ≤ mu) (hS : wSum d lims mu d.length < C)
    (hw : IsWater d lims mu a)
    (hRD : calculate_remaining_demand d (get_remaining_products a lims) ≠ 0) :
    wSum d lims
      (mu + (C - wSum d lims mu d.length) /
        calculate_remaining_demand d (get_remaining_products a lims))
      d.length ≤ C := by
  have hRDpos : 0 < calculate_remaining_demand d (get_remaining_products a lims) :=
    lt_of_le_of_ne (remaining_demand_nonneg d hd _) (Ne.symm hRD)
  have hle : mu ≤ mu + (C - wSum d lims mu d.length) /
      calculate_remaining_demand d (get_remaining_products a lims) := by
    have : 0 ≤ (C - wSum d lims mu d.length) /
        calculate_remaining_demand d (get_remaining_products a lims) :=
      div_nonneg (by linarith) hRDpos.le
    linarith
  rw [wSum_split d lims mu _ a hg hld hd hmu hle hw]
  have hbound : ∑ i in (Finset.range d.length).filter
      (fun i => i ∈ get_remaining_products a lims),
      (wEntry d lims
        (mu + (C - wSum d lims mu d.length) /
          calculate_remaining_demand d (get_remaining_products a lims)) i -
        wEntry d lims mu i) ≤
      C - wSum d lims mu d.length := by
    have hstep : ∀ i ∈ (Finset.range d.length).filter
        (fun i => i ∈ get_remaining_products a lims),
        wEntry d lims
          (mu + (C - wSum d lims mu d.length) /
            calculate_remaining_demand d (get_remaining_products a lims)) i -
          wEntry d lims mu i ≤
        ((C - wSum d lims mu d.length) /
          calculate_remaining_demand d (get_remaining_products a lims)) *
          d.getD i 0 := by
      intro i hi
      simp only [Finset.mem_filter, Finset.mem_range] at hi
      have h1 := wEntry_le_mul d lims
        (mu + (C - wSum d lims mu d.length) /
          calculate_remaining_demand d (get_remaining_products a lims)) i
      have h2 := (remaining_wEntry d lims mu a hg hld hw i hi.2).1
      rw [h2]
      have expand : (mu + (C - wSum d lims mu d.length) /
          calculate_remaining_demand d (get_remaining_products a lims)) *
            d.getD i 0 =
          mu * d.getD i 0 + ((C - wSum d lims mu d.length) /
            calculate_remaining_demand d (get_remaining_products a lims)) *
            d.getD i 0 := by ring
      rw [expand] at h1
      linarith
    have := Finset.sum_le_sum hstep
    rw [← Finset.mul_sum, filter_sum_eq_remaining d a lims d.length hw.1] at this
    rw [div_mul_cancel₀ _ hRD] at this
    exact this
  linarith

/-- When the remaining demand is zero, one redistribution round adds zero
everywhere and leaves the water-filling state unchanged. -/
theorem distribute_RD_zero (d : List ℚ) (lims : List F) (C : ℚ) (mu : ℚ) (a : List F)
    (hg : GoodLimits lims) (hld : lims.length = d.length)
    (hw : IsWater d lims mu a)
    (hRD : calculate_remaining_demand d (get_remaining_products a lims) = 0) :
    distribute_surplus a d lims (get_remaining_products a lims)
      (calculate_remaining_demand d (get_remaining_products a lims))
      (calculate_surplus C (F.sumF a)) = a := by
  refine list_ext_getD _ _ F.nan (by rw [distribute_surplus_length]) (fun j hj => ?_)
  rw [distribute_surplus_length] at hj
  rw [distribute_surplus_getD a d lims _ _ _ (get_remaining_nodup a lims)
    (get_remaining_bound a lims) j]
  by_cases hjR : j ∈ get_remaining_products a lims
  · rw [if_pos hjR]
    have hjn : j < d.length := by rw [← hw.1]; exact hj
    rw [hw.2 j hjn]
    rw [calculate_additional_capacity, if_pos hRD, F.add_fin, add_zero]
    obtain ⟨hval, hlt⟩ := remaining_wEntry d lims mu a hg hld hw j hjR
    rcases limit_cases lims hg j (by omega) with h | ⟨l, h⟩
    · rw [h, F.pymin_fin_pinf]
    · rw [h, F.pymin_fin_fin]
      have := hlt l h
      rw [hval, min_eq_left this.le]
  · rw [if_neg hjR]

/-- One redistribution round with nonzero remaining demand moves the
water-filling profile to the larger multiplier mu + surplus / remaining
demand. -/
theorem isWater_distribute (d : List ℚ) (lims : List F) (C : ℚ) (mu : ℚ) (a : List F)
    (hg : GoodLimits lims) (hld : lims.length = d.length) (hd : NonnegDemands d)
    (hmu : 0 ≤ mu) (hw : IsWater d lims mu a)
    (hS : wSum d lims mu d.length < C)
    (hRD : calculate_remaining_demand d (get_remaining_products a lims) ≠ 0) :
    IsWater d lims
      (mu + (C - wSum d lims mu d.length) /
        calculate_remaining_demand d (get_remaining_products a lims))
      (distribute_surplus a d lims (get_remaining_products a lims)
        (calculate_remaining_demand d (get_remaining_products a lims))
        (calculate_surplus C (F.sumF a))) := by
  have hRDpos : 0 < calculate_remaining_demand d (get_remaining_products a lims) :=
    lt_of_le_of_ne (remaining_demand_nonneg d hd _) (Ne.symm hRD)
  have hle : mu ≤ mu + (C - wSum d lims mu d.length) /
      calculate_remaining_demand d (get_remaining_products a lims) := by
    have : 0 ≤ (C - wSum d lims mu d.length) /
        calculate_remaining_demand d (get_remaining_products a lims) :=
      div_nonneg (by linarith) hRDpos.le
    linarith
  constructor
  · rw [distribute_surplus_length]; exact hw.1
  · intro j hjn
    have hj : j < a.length := by rw [hw.1]; exact hjn
    rw [distribute_surplus_getD a d lims _ _ _ (get_remaining_nodup a lims)
      (get_remaining_bound a lims) j]
    by_cases hjR : j ∈ get_remaining_products a lims
    · rw [if_pos hjR]
      rw [hw.2 j hjn]
      rw [isWater_sumF d lims mu a hw, calculate_surplus, F.sub_fin]
      rw [calculate_additional_capacity, if_neg hRD, F.mul_fin, F.add_fin]
      obtain ⟨hval, _⟩ := remaining_wEntry d lims mu a hg hld hw j hjR
      have harith : wEntry d lims mu j +
          d.getD j 0 / calculate_remaining_demand d (get_remaining_products a lims) *
            (C - wSum d lims mu d.length) =
          (mu + (C - wSum d lims mu d.length) /
            calculate_remaining_demand d (get_remaining_products a lims)) *
            d.getD j 0 := by
        rw [hval]
        ring
      rw [harith]
      rcases limit_cases lims hg j (by omega) with h | ⟨l, h⟩
      · rw [h, F.pymin_fin_pinf, wEntry_of_pinf d lims _ j h]
      · rw [h, F.pymin_fin_fin, wEntry_of_fin d lims _ j l h]
    · rw [if_neg hjR]
      rw [hw.2 j hjn]
      rw [capped_preserved d lims mu _ a hg hld hd hmu hle hw j hjn hjR]

/-- When the loop guard is already false, the while loop exits at once
whatever the fuel. -/
theorem adjust_guard_false (fuel : ℕ) (a : List F) (d : List ℚ) (lims : List F) (C : ℚ)
    (h : ¬ F.lt (F.sumF a) (F.fin C) = true) :
    adjust_allocation fuel a d lims C = some a := by
  cases fuel with
  | zero => rw [adjust_allocation, if_neg h]
  | succ n => rw [adjust_allocation, if_neg h]

/-- Characterization of every terminating run of the while loop: starting
from a water-filling profile whose total is within the pool, the loop
returns a water-filling profile at some larger multiplier whose total is
still within the pool, and at exit either the pool is exactly spent or no
product remains under its cap. -/
theorem adjust_characterization (d : List ℚ) (lims : List F) (C : ℚ)
    (hg : GoodLimits lims) (hld : lims.length = d.length) (hd : NonnegDemands d) :
    ∀ fuel (a : List F) (mu : ℚ) (r : List F), 0 ≤ mu → IsWater d lims mu a →
      wSum d lims mu d.length ≤ C →
      adjust_allocation fuel a d lims C = some r →
      ∃ mu2, mu ≤ mu2 ∧ IsWater d lims mu2 r ∧ wSum d lims mu2 d.length ≤ C ∧
        (wSum d lims mu2 d.length = C ∨ get_remaining_products r lims = []) := by
  intro fuel
  induction fuel with
  | zero =>
      intro a mu r hmu hw hle h
      rw [adjust_allocation] at h
      by_cases hguard : F.lt (F.sumF a) (F.fin C) = true
      · rw [if_pos hguard] at h
        cases h
      · rw [if_neg hguard] at h
        injection h with h'
        subst h'
        rw [isWater_sumF d lims mu a hw, F.lt_fin_fin] at hguard
        have : ¬ wSum d lims mu d.length < C := by
          intro hcon
          exact hguard (decide_eq_true hcon)
        exact ⟨mu, le_refl mu, hw, hle, Or.inl (le_antisymm hle (not_lt.mp this))⟩
  | succ n ih =>
      intro a mu r hmu hw hle h
      rw [adjust_allocation] at h
      by_cases hguard : F.lt (F.sumF a) (F.fin C) = true
      · rw [if_pos hguard] at h
        by_cases hR : get_remaining_products a lims = []
        · rw [if_pos hR] at h
          injection h with h'
          subst h'
          exact ⟨mu, le_refl mu, hw, hle, Or.inr hR⟩
        · rw [if_neg hR] at h
          have hSlt : wSum d lims mu d.length < C := by
            rw [isWater_sumF d lims mu a hw, F.lt_fin_fin] at hguard
            exact of_decide_eq_true hguard
          by_cases hRD : calculate_remaining_demand d
              (get_remaining_products a lims) = 0
          · rw [distribute_RD_zero d lims C mu a hg hld hw hRD] at h
            exact ih a mu r hmu hw hle h
          · have hRDpos : 0 < calculate_remaining_demand d
                (get_remaining_products a lims) :=
              lt_of_le_of_ne (remaining_demand_nonneg d hd _) (Ne.symm hRD)
            have hmu' : mu ≤ mu + (C - wSum d lims mu d.length) /
                calculate_remaining_demand d (get_remaining_products a lims) := by
              have : 0 ≤ (C - wSum d lims mu d.length) /
                  calculate_remaining_demand d (get_remaining_products a lims) :=
                div_nonneg (by linarith) hRDpos.le
              linarith
            have hw' := isWater_distribute d lims C mu a hg hld hd hmu hw hSlt hRD
            have hle' := wSum_step_le d lims C mu a hg hld hd hmu hSlt hw hRD
            obtain ⟨mu2, hmu2, hw2, hle2, hdisj⟩ :=
              ih _ _ r (le_trans hmu hmu') hw' hle' h
            exact ⟨mu2, le_trans hmu' hmu2, hw2, hle2, hdisj⟩
      · rw [if_neg hguard] at h
        injection h with h'
        subst h'
        rw [isWater_sumF d lims mu a hw, F.lt_fin_fin] at hguard
        have : ¬ wSum d lims mu d.length < C := by
          intro hcon
          exact hguard (decide_eq_true hcon)
        exact ⟨mu, le_refl mu, hw, hle, Or.inl (le_antisymm hle (not_lt.mp this))⟩

/-- If after a round the remaining products are a subset of the old ones
and at least one old remaining product dropped out, strictly fewer remain. -/
theorem remaining_shrinks (a a' lims : List F) (hlen : a'.length = a.length)
    (hsub : ∀ i ∈ get_remaining_products a' lims, i ∈ get_remaining_products a lims)
    (i₀ : ℕ) (hi₀ : i₀ ∈ get_remaining_products a lims)
    (hi₀' : i₀ ∉ get_remaining_products a' lims) :
    (get_remaining_products a' lims).length <
      (get_remaining_products a lims).length := by
  have hform : get_remaining_products a' lims =
      (List.range a.length).filter
        (fun i => F.lt (a'.getD i F.nan) (lims.getD i F.nan)) := by
    rw [get_remaining_products, hlen]
  rw [hform, get_remaining_products]
  refine filter_length_lt (List.range a.length)
    (fun i => F.lt (a'.getD i F.nan) (lims.getD i F.nan))
    (fun i => F.lt (a.getD i F.nan) (lims.getD i F.nan)) ?_ i₀ ?_ ?_ ?_
  · intro x hx hpx
    have hxR' : x ∈ get_remaining_products a' lims := by
      rw [hform, List.mem_filter]
      exact ⟨hx, hpx⟩
    exact ((mem_get_remaining a lims x).mp (hsub x hxR')).2
  · exact List.mem_range.mpr (get_remaining_bound a lims i₀ hi₀)
  · exact ((mem_get_remaining a lims i₀).mp hi₀).2
  · by_contra hcon
    rw [Bool.not_eq_false] at hcon
    refine hi₀' ?_
    rw [hform, List.mem_filter]
    exact ⟨List.mem_range.mpr (get_remaining_bound a lims i₀ hi₀), hcon⟩

/-- Termination of the while loop when every demand is strictly positive:
starting from a water-filling profile within the pool, a budget of one
more iteration than there are remaining products suffices, because every
round either fills the pool exactly or permanently caps another product. -/
theorem adjust_terminates (d : List ℚ) (lims : List F) (C : ℚ)
    (hg : GoodLimits lims) (hld : lims.length = d.length)
    (hdpos : ∀ x ∈ d, 0 < x) :
    ∀ fuel (a : List F) (mu : ℚ), 0 ≤ mu → IsWater d lims mu a →
      wSum d lims mu d.length ≤ C →
      (get_remaining_products a lims).length < fuel →
      ∃ r, adjust_allocation fuel a d lims C = some r := by
  have hd : NonnegDemands d := fun x hx => (hdpos x hx).le
  intro fuel
  induction fuel with
  | zero =>
      intro a mu _ _ _ hlt
      omega
  | succ n ih =>
      intro a mu hmu hw hle hlt
      rw [adjust_allocation]
      by_cases hguard : F.lt (F.sumF a) (F.fin C) = true
      · rw [if_pos hguard]
        by_cases hR : get_remaining_products a lims = []
        · rw [if_pos hR]
          exact ⟨a, rfl⟩
        · rw [if_neg hR]
          have hSlt : wSum d lims mu d.length < C := by
            rw [isWater_sumF d lims mu a hw, F.lt_fin_fin] at hguard
            exact of_decide_eq_true hguard
          have hRDpos : 0 < calculate_remaining_demand d
              (get_remaining_products a lims) := by
            rw [calculate_remaining_demand]
            refine List.sum_pos _ (fun x hx => ?_) ?_
            · obtain ⟨j, hjR, rfl⟩ := List.mem_map.mp hx
              have hj : j < d.length := by
                rw [← hw.1]
                exact get_remaining_bound a lims j hjR
              rw [getD_eq_of_lt _ _ hj]
              exact hdpos _ (List.getElem_mem hj)
            · simpa using hR
          have hRD : calculate_remaining_demand d
              (get_remaining_products a lims) ≠ 0 := ne_of_gt hRDpos
          have hmu'ge : mu ≤ mu + (C - wSum d lims mu d.length) /
              calculate_remaining_demand d (get_remaining_products a lims) := by
            have : 0 ≤ (C - wSum d lims mu d.length) /
                calculate_remaining_demand d (get_remaining_products a lims) :=
              div_nonneg (by linarith) hRDpos.le
            linarith
          have hw' := isWater_distribute d lims C mu a hg hld hd hmu hw hSlt hRD
          have hle' := wSum_step_le d lims C mu a hg hld hd hmu hSlt hw hRD
          have hlen' : (distribute_surplus a d lims (get_remaining_products a lims)
              (calculate_remaining_demand d (get_remaining_products a lims))
              (calculate_surplus C (F.sumF a))).length = a.length :=
            distribute_surplus_length ..
          by_cases hall : ∀ i ∈ get_remaining_products a lims,
              i ∈ get_remaining_products (distribute_surplus a d lims
                (get_remaining_products a lims)
                (calculate_remaining_demand d (get_remaining_products a lims))
                (calculate_surplus C (F.sumF a))) lims
          · have hsumC : wSum d lims
                (mu + (C - wSum d lims mu d.length) /
                  calculate_remaining_demand d (get_remaining_products a lims))
                d.length = C := by
              rw [wSum_split d lims mu _ a hg hld hd hmu hmu'ge hw]
              have hpt : ∀ i ∈ (Finset.range d.length).filter
                  (fun i => i ∈ get_remaining_products a lims),
                  wEntry d lims
                    (mu + (C - wSum d lims mu d.length) /
                      calculate_remaining_demand d (get_remaining_products a lims)) i -
                    wEntry d lims mu i =
                  ((C - wSum d lims mu d.length) /
                    calculate_remaining_demand d (get_remaining_products a lims)) *
                    d.getD i 0 := by
                intro i hi
                simp only [Finset.mem_filter, Finset.mem_range] at hi
                have h1 := (remaining_wEntry d lims mu a hg hld hw i hi.2).1
                have h2 := (remaining_wEntry d lims _ _ hg hld hw' i (hall i hi.2)).1
                rw [h1, h2]
                ring
              rw [Finset.sum_congr rfl hpt, ← Finset.mul_sum,
                filter_sum_eq_remaining d a lims d.length hw.1,
                div_mul_cancel₀ _ hRD]
              ring
            refine ⟨distribute_surplus a d lims (get_remaining_products a lims)
                (calculate_remaining_demand d (get_remaining_products a lims))
                (calculate_surplus C (F.sumF a)), ?_⟩
            have hgf : ¬ F.lt (F.sumF (distribute_surplus a d lims
                (get_remaining_products a lims)
                (calculate_remaining_demand d (get_remaining_products a lims))
                (calculate_surplus C (F.sumF a)))) (F.fin C) = true := by
              rw [isWater_sumF d lims _ _ hw', hsumC, F.lt_fin_fin]
              simp
            exact adjust_guard_false n _ d lims C hgf
          · push_neg at hall
            obtain ⟨i₀, hi₀R, hi₀R'⟩ := hall
            have hsub : ∀ i ∈ get_remaining_products (distribute_surplus a d lims
                (get_remaining_products a lims)
                (calculate_remaining_demand d (get_remaining_products a lims))
                (calculate_surplus C (F.sumF a))) lims,
                i ∈ get_remaining_products a lims := by
              intro i hiR'
              by_contra hiR
              have hj : i < d.length := by
                have := get_remaining_bound _ lims i hiR'
                rw [hlen', hw.1] at this
                exact this
              obtain ⟨l, hlim, hval, hcap⟩ :=
                capped_wEntry d lims mu a hg hld hw i hj hiR
              have hmemr := (isWater_mem_remaining d lims _ _ hw' i).mp hiR'
              rw [capped_preserved d lims mu _ a hg hld hd hmu hmu'ge hw i hj hiR,
                hval, hlim, F.lt_fin_fin] at hmemr
              exact absurd (of_decide_eq_true hmemr.2) (lt_irrefl l)
            have hshrink := remaining_shrinks a _ lims hlen' hsub i₀ hi₀R hi₀R'
            exact ih _ _ (le_trans hmu hmu'ge) hw' hle' (by omega)
      · rw [if_neg hguard]
        exact ⟨a, rfl⟩

/-- Pointwise value of the demands column. -/
theorem demandsOf_getD (rows : List Row) (i : ℕ) (hi : i < rows.length) :
    (demandsOf rows).getD i 0 = (rows.getD i default).capacity := by
  rw [getD_eq_of_lt _ _ (by simpa [demandsOf] using hi), getD_eq_of_lt _ _ hi]
  simp [demandsOf]

/-- Pointwise value of the filled limits column. -/
theorem limitsOf_getD (rows : List Row) (i : ℕ) (hi : i < rows.length) :
    (limitsOf rows).getD i F.nan = fillna ((rows.getD i default).individualLimit) := by
  rw [getD_eq_of_lt _ _ (by simpa [limitsOf] using hi), getD_eq_of_lt _ _ hi]
  simp [limitsOf]

/-- C1, amended: when additionally every demand is strictly positive (the
claim as frozen fails when an uncapped entity has zero demand: the loop
then spins forever, see the counterexample), validation passes, the loop
exits within rows + 1 iterations, and the returned allocations sum exactly
to the pool whenever the limits leave room (a missing limit counts as
unbounded room). -/
theorem C1_conservation_all_demands_positive
    (df : DataFrame)
    (hcols : requiredColumnsPresent df = true)
    (hne : df.rows ≠ [])
    (hd : ∀ r ∈ df.rows, 0 < r.capacity)
    (_hl : ∀ r ∈ df.rows, ∀ l : ℚ, r.individualLimit = some l → 0 ≤ l)
    (hC : 0 ≤ extract_group_capacity df.rows)
    (hcap : (∀ r ∈ df.rows, r.individualLimit ≠ none) →
      extract_group_capacity df.rows ≤
        (df.rows.map (fun r => r.individualLimit.getD 0)).sum) :
    ∃ out al,
      ProportionalAllocation.allocate (df.rows.length + 1) (PFrame.reg df) =
        Except.ok (some (PFrame.reg out)) ∧
      out.allocationCol = some al ∧
      F.sumF al = F.fin (extract_group_capacity df.rows) := by
  have hg := goodLimits_limitsOf df.rows
  have hld : (limitsOf df.rows).length = (demandsOf df.rows).length := by
    rw [limitsOf_length, demandsOf_length]
  have hdpos : ∀ x ∈ demandsOf df.rows, 0 < x := by
    intro x hx
    obtain ⟨r, hr, rfl⟩ := List.mem_map.mp hx
    exact hd r hr
  have hdne : demandsOf df.rows ≠ [] := by
    simp [demandsOf, hne]
  have hDpos : 0 < (demandsOf df.rows).sum := List.sum_pos _ hdpos hdne
  have hD : (demandsOf df.rows).sum ≠ 0 := ne_of_gt hDpos
  have hmu0 : 0 ≤ extract_group_capacity df.rows / (demandsOf df.rows).sum :=
    div_nonneg hC hDpos.le
  have hw0 := isWater_initial (demandsOf df.rows) (limitsOf df.rows)
    (extract_group_capacity df.rows) hg hld hD
  have hle0 : wSum (demandsOf df.rows) (limitsOf df.rows)
      (extract_group_capacity df.rows / (demandsOf df.rows).sum)
      (demandsOf df.rows).length ≤ extract_group_capacity df.rows := by
    refine le_trans (wSum_le_mul_sum _ _ _) ?_
    rw [div_mul_cancel₀ _ hD]
  have hfuel : (get_remaining_products (initial_allocation (demandsOf df.rows)
      (limitsOf df.rows) (extract_group_capacity df.rows)) (limitsOf df.rows)).length <
      df.rows.length + 1 := by
    have h1 := get_remaining_length_le (initial_allocation (demandsOf df.rows)
      (limitsOf df.rows) (extract_group_capacity df.rows)) (limitsOf df.rows)
    rw [initial_allocation_length, demandsOf_length, limitsOf_length, min_self] at h1
    omega
  obtain ⟨r, hadj⟩ := adjust_terminates (demandsOf df.rows) (limitsOf df.rows)
    (extract_group_capacity df.rows) hg hld hdpos (df.rows.length + 1) _ _
    hmu0 hw0 hle0 hfuel
  obtain ⟨mu2, hge, hw2, hle2, hdisj⟩ := adjust_characterization (demandsOf df.rows)
    (limitsOf df.rows) (extract_group_capacity df.rows) hg hld
    (fun x hx => (hdpos x hx).le) (df.rows.length + 1) _ _ r hmu0 hw0 hle0 hadj
  have hsum : F.sumF r = F.fin (wSum (demandsOf df.rows) (limitsOf df.rows) mu2
      (demandsOf df.rows).length) := isWater_sumF _ _ _ _ hw2
  have hwsC : wSum (demandsOf df.rows) (limitsOf df.rows) mu2
      (demandsOf df.rows).length = extract_group_capacity df.rows := by
    rcases hdisj with hC' | hempty
    · exact hC'
    · have hcapped : ∀ i < (demandsOf df.rows).length,
          ∃ l : ℚ, (limitsOf df.rows).getD i F.nan = F.fin l ∧
            wEntry (demandsOf df.rows) (limitsOf df.rows) mu2 i = l := by
        intro i hi
        have hnotin : i ∉ get_remaining_products r (limitsOf df.rows) := by
          rw [hempty]
          simp
        obtain ⟨l, h1, h2, _⟩ := capped_wEntry (demandsOf df.rows) (limitsOf df.rows)
          mu2 r hg hld hw2 i hi hnotin
        exact ⟨l, h1, h2⟩
      have hclosed : ∀ rr ∈ df.rows, rr.individualLimit ≠ none := by
        intro rr hrr hnone
        obtain ⟨i, hi, hrri⟩ := List.getElem_of_mem hrr
        obtain ⟨l, h1, _⟩ := hcapped i (by rw [demandsOf_length]; exact hi)
        rw [limitsOf_getD df.rows i hi, getD_eq_of_lt _ _ hi, hrri, hnone] at h1
        simp [fillna] at h1
      have hub := hcap hclosed
      have hsum_lims : wSum (demandsOf df.rows) (limitsOf df.rows) mu2
          (demandsOf df.rows).length =
          (df.rows.map (fun rr => rr.individualLimit.getD 0)).sum := by
        rw [wSum, list_sum_eq_range_sum]
        rw [List.length_map, demandsOf_length]
        refine Finset.sum_congr rfl (fun i hi => ?_)
        rw [Finset.mem_range] at hi
        obtain ⟨l, h1, h2⟩ := hcapped i (by rw [demandsOf_length]; exact hi)
        rw [h2]
        rw [limitsOf_getD df.rows i hi] at h1
        rw [getD_eq_of_lt _ _ (by simpa using hi)]
        rw [List.getElem_map]
        cases hopt : (df.rows.getD i default).individualLimit with
        | none => rw [hopt] at h1; simp [fillna] at h1
        | some v =>
            rw [hopt] at h1
            simp only [fillna] at h1
            injection h1 with hlv
            rw [getD_eq_of_lt _ _ hi] at hopt
            rw [hopt]
            simp [hlv]
      rw [hsum_lims]
      rw [hsum_lims] at hle2
      exact le_antisymm hle2 hub
  refine ⟨{ df with
      allocationCol := some r,
      newAllocShareCol := some (calculate_allocation_share r (demandsOf df.rows)),
      newOverlimitCol := some (new_overlimit r df.rows) }, r, ?_, rfl, ?_⟩
  · rw [ProportionalAllocation.allocate]
    rw [if_neg (by simp [hcols])]
    rw [if_neg (by simpa [List.isEmpty_iff] using hne)]
    simp only []
    rw [hadj]
  · rw [hsum, hwsC]

/-- Witness for C1 at scenario 1 of the spec: demands [30, 50, 20], limits
[40, 60, 30], pool 100 sum to exactly 100. -/
theorem C1_conservation_witness :
    ∃ out al,
      ProportionalAllocation.allocate (c1wdf.rows.length + 1) (PFrame.reg c1wdf) =
        Except.ok (some (PFrame.reg out)) ∧
      out.allocationCol = some al ∧
      F.sumF al = F.fin (extract_group_capacity c1wdf.rows) :=
  C1_conservation_all_demands_positive c1wdf
    (by norm_num [requiredColumnsPresent, c1wdf, inputFrame])
    (by simp [c1wdf, inputFrame])
    (by norm_num [c1wdf, inputFrame])
    (by
      intro r hr l hl
      simp only [c1wdf, inputFrame, List.mem_cons, List.not_mem_nil, or_false] at hr
      rcases hr with rfl | rfl | rfl <;> simp at hl <;> subst hl <;> norm_num)
    (by norm_num [c1wdf, inputFrame, extract_group_capacity])
    (by
      intro hcl
      norm_num [c1wdf, inputFrame, extract_group_capacity])

/-- Nothing is below NaN in float comparison. -/
theorem F.lt_nan (x : F) : F.lt x F.nan = false := by cases x <;> rfl

/-- The group capacity of a non-empty frame is the first row's value. -/
theorem extract_eq_getD (rows : List Row) (hne : rows ≠ []) :
    extract_group_capacity rows = (rows.getD 0 default).groupCapacity := by
  cases rows with
  | nil => exact absurd rfl hne
  | cons r rest => rfl

/-- With zero total demand every initial allocation entry is NaN (0/0). -/
theorem initial_allocation_nan (d : List ℚ) (lims : List F) (C : ℚ)
    (hd : NonnegDemands d) (hD : d.sum = 0) (i : ℕ) (hi : i < d.length)
    (hil : i < lims.length) :
    (initial_allocation d lims C).getD i F.nan = F.nan := by
  rw [initial_allocation_getD d lims C i hi hil]
  have hdi : d.getD i 0 = 0 := by
    rw [getD_eq_of_lt _ _ hi]
    exact List.all_zero_of_le_zero_le_of_sum_eq_zero hd hD (List.getElem_mem hi)
  rw [hdi, hD]
  simp [F.div, F.nan_mul, F.pymin_nan]

/-- With zero total demand and at least one entity the loop guard is false
at once and the while loop returns the NaN vector unchanged. -/
theorem adjust_of_zero_demand (d : List ℚ) (lims : List F) (C : ℚ) (fuel : ℕ)
    (A : List F) (hd : NonnegDemands d) (hD : d.sum = 0) (hne : d ≠ [])
    (hld : lims.length = d.length)
    (h : adjust_allocation fuel (initial_allocation d lims C) d lims C = some A) :
    A = initial_allocation d lims C := by
  have hdpos : 0 < d.length := List.length_pos.mpr hne
  have hlen0 : 0 < (initial_allocation d lims C).length := by
    rw [initial_allocation_length]
    omega
  have h0 : (initial_allocation d lims C).getD 0 F.nan = F.nan :=
    initial_allocation_nan d lims C hd hD 0 (by omega) (by omega)
  have hmem : F.nan ∈ initial_allocation d lims C := by
    rw [getD_eq_of_lt _ _ hlen0] at h0
    rw [← h0]
    exact List.getElem_mem hlen0
  have hguard : ¬ F.lt (F.sumF (initial_allocation d lims C)) (F.fin C) = true := by
    rw [F.sumF_nan _ hmem]
    simp [F.lt]
  rw [adjust_guard_false fuel _ d lims C hguard] at h
  injection h with h'
  exact h'.symm

/-- C8: increasing one entity's demand while holding the pool, every
limit, and all other demands fixed never decreases that entity's
allocation in the result of allocate (stated as: the new allocation is
never below the old one in float comparison). -/
theorem C8_demand_monotonicity
    (df df' : DataFrame) (i fuel fuel' : ℕ) (out out' : DataFrame) (al al' : List F)
    (hlen : df'.rows.length = df.rows.length)
    (hagree : ∀ j, j ≠ i → df'.rows.getD j default = df.rows.getD j default)
    (hlimi : (df'.rows.getD i default).individualLimit =
      (df.rows.getD i default).individualLimit)
    (hgci : (df'.rows.getD i default).groupCapacity =
      (df.rows.getD i default).groupCapacity)
    (hinc : (df.rows.getD i default).capacity ≤ (df'.rows.getD i default).capacity)
    (hi : i < df.rows.length)
    (hd : ∀ r ∈ df.rows, 0 ≤ r.capacity)
    (hC : 0 ≤ extract_group_capacity df.rows)
    (hrun : ProportionalAllocation.allocate fuel (PFrame.reg df) =
      Except.ok (some (PFrame.reg out)))
    (hrun' : ProportionalAllocation.allocate fuel' (PFrame.reg df') =
      Except.ok (some (PFrame.reg out')))
    (hal : out.allocationCol = some al)
    (hal' : out'.allocationCol = some al') :
    F.lt (al'.getD i F.nan) (al.getD i F.nan) = false := by
  have hne : df.rows ≠ [] := by
    intro hc
    rw [hc] at hi
    simp at hi
  have hne' : df'.rows ≠ [] := by
    intro hc
    rw [hc] at hlen
    simp at hlen
    omega
  obtain ⟨hreq, A, hadj, hout⟩ := allocate_ok_some fuel df out hrun hne
  obtain ⟨hreq', A', hadj', hout'⟩ := allocate_ok_some fuel' df' out' hrun' hne'
  have hAal : al = A := by
    rw [hout] at hal
    exact (by simpa using hal : A = al).symm
  have hAal' : al' = A' := by
    rw [hout'] at hal'
    exact (by simpa using hal' : A' = al').symm
  subst hAal
  subst hAal'
  -- the two calls read the same limits column and the same pool
  have hlims : limitsOf df'.rows = limitsOf df.rows := by
    refine list_ext_getD _ _ F.nan (by rw [limitsOf_length, limitsOf_length, hlen])
      (fun j hj => ?_)
    rw [limitsOf_length] at hj
    rw [limitsOf_getD _ _ hj, limitsOf_getD _ _ (by omega)]
    by_cases hji : j = i
    · subst hji
      rw [hlimi]
    · rw [hagree j hji]
  have hgc : extract_group_capacity df'.rows = extract_group_capacity df.rows := by
    rw [extract_eq_getD _ hne, extract_eq_getD _ hne']
    by_cases h0i : (0 : ℕ) = i
    · rw [h0i]
      exact hgci
    · rw [hagree 0 h0i]
  rw [hlims, hgc] at hadj'
  -- demands facts
  have hdlen : (demandsOf df'.rows).length = (demandsOf df.rows).length := by
    rw [demandsOf_length, demandsOf_length, hlen]
  have hdnn : NonnegDemands (demandsOf df.rows) := by
    intro x hx
    obtain ⟨r, hr, rfl⟩ := List.mem_map.mp hx
    exact hd r hr
  have hdagree : ∀ j, j ≠ i →
      (demandsOf df'.rows).getD j 0 = (demandsOf df.rows).getD j 0 := by
    intro j hji
    rcases lt_or_ge j df.rows.length with hj | hj
    · rw [demandsOf_getD _ _ hj, demandsOf_getD _ _ (by omega), hagree j hji]
    · rw [getD_eq_of_le _ _ (by rw [demandsOf_length]; omega),
        getD_eq_of_le _ _ (by rw [demandsOf_length]; omega)]
  have hdinc : (demandsOf df.rows).getD i 0 ≤ (demandsOf df'.rows).getD i 0 := by
    rw [demandsOf_getD _ _ hi, demandsOf_getD _ _ (by omega)]
    exact hinc
  have hdnn' : NonnegDemands (demandsOf df'.rows) := by
    intro x hx
    obtain ⟨j, hj, rfl⟩ := List.getElem_of_mem hx
    rw [← getD_eq_of_lt _ (0 : ℚ) hj]
    by_cases hji : j = i
    · subst hji
      refine le_trans ?_ hdinc
      rw [demandsOf_getD _ _ hi, getD_eq_of_lt _ _ hi]
      exact hd _ (List.getElem_mem hi)
    · rw [hdagree j hji]
      rcases lt_or_ge j (demandsOf df.rows).length with hjl | hjl
      · rw [getD_eq_of_lt _ _ hjl]
        exact hdnn _ (List.getElem_mem hjl)
      · rw [getD_eq_of_le _ _ hjl]
  by_cases hD0 : (demandsOf df.rows).sum = 0
  · -- run 1 returned the NaN vector: nothing is below NaN
    have hdne : demandsOf df.rows ≠ [] := by simp [demandsOf, hne]
    have hA := adjust_of_zero_demand (demandsOf df.rows) (limitsOf df.rows)
      (extract_group_capacity df.rows) fuel al hdnn hD0 hdne
      (by rw [limitsOf_length, demandsOf_length]) hadj
    subst hA
    rw [initial_allocation_nan (demandsOf df.rows) (limitsOf df.rows)
      (extract_group_capacity df.rows) hdnn hD0 i
      (by rw [demandsOf_length]; exact hi) (by rw [limitsOf_length]; exact hi)]
    exact F.lt_nan _
  · -- main case: both runs are water-filling profiles
    have hg := goodLimits_limitsOf df.rows
    have hld : (limitsOf df.rows).length = (demandsOf df.rows).length := by
      rw [limitsOf_length, demandsOf_length]
    have hld' : (limitsOf df.rows).length = (demandsOf df'.rows).length := by
      rw [limitsOf_length, hdlen, demandsOf_length]
    have hDpos : 0 < (demandsOf df.rows).sum := by
      rcases lt_or_ge 0 (demandsOf df.rows).sum with h | h
      · exact h
      · exact absurd (le_antisymm h (List.sum_nonneg hdnn)) hD0
    have hsum_le : (demandsOf df.rows).sum ≤ (demandsOf df'.rows).sum := by
      rw [list_sum_eq_range_sum, list_sum_eq_range_sum, hdlen]
      refine Finset.sum_le_sum (fun j _ => ?_)
      by_cases hji : j = i
      · subst hji
        exact hdinc
      · rw [hdagree j hji]
    have hDpos' : 0 < (demandsOf df'.rows).sum := lt_of_lt_of_le hDpos hsum_le
    have hD' : (demandsOf df'.rows).sum ≠ 0 := ne_of_gt hDpos'
    have hD : (demandsOf df.rows).sum ≠ 0 := ne_of_gt hDpos
    -- characterize run 1
    have hmu0 : 0 ≤ extract_group_capacity df.rows / (demandsOf df.rows).sum :=
      div_nonneg hC hDpos.le
    have hw0 := isWater_initial (demandsOf df.rows) (limitsOf df.rows)
      (extract_group_capacity df.rows) hg hld hD
    have hle0 : wSum (demandsOf df.rows) (limitsOf df.rows)
        (extract_group_capacity df.rows / (demandsOf df.rows).sum)
        (demandsOf df.rows).length ≤ extract_group_capacity df.rows := by
      refine le_trans (wSum_le_mul_sum _ _ _) ?_
      rw [div_mul_cancel₀ _ hD]
    obtain ⟨mu2, hge2, hw2, hle2, _⟩ := adjust_characterization (demandsOf df.rows)
      (limitsOf df.rows) (extract_group_capacity df.rows) hg hld hdnn fuel _ _ al
      hmu0 hw0 hle0 hadj
    -- characterize run 2
    have hmu0' : 0 ≤ extract_group_capacity df.rows / (demandsOf df'.rows).sum :=
      div_nonneg hC hDpos'.le
    have hw0' := isWater_initial (demandsOf df'.rows) (limitsOf df.rows)
      (extract_group_capacity df.rows) hg hld' hD'
    have hle0' : wSum (demandsOf df'.rows) (limitsOf df.rows)
        (extract_group_capacity df.rows / (demandsOf df'.rows).sum)
        (demandsOf df'.rows).length ≤ extract_group_capacity df.rows := by
      refine le_trans (wSum_le_mul_sum _ _ _) ?_
      rw [div_mul_cancel₀ _ hD']
    obtain ⟨mu2', hge2', hw2', hle2', hdisj'⟩ := adjust_characterization
      (demandsOf df'.rows) (limitsOf df.rows) (extract_group_capacity df.rows)
      hg hld' hdnn' fuel' _ _ al' hmu0' hw0' hle0' hadj'
    have hmu2nn : 0 ≤ mu2 := le_trans hmu0 hge2
    have hmu2nn' : 0 ≤ mu2' := le_trans hmu0' hge2'
    -- the two entries being compared
    have hiA : i < (demandsOf df.rows).length := by
      rw [demandsOf_length]
      exact hi
    have hiA' : i < (demandsOf df'.rows).length := by
      rw [hdlen]
      exact hiA
    rw [hw2.2 i hiA, hw2'.2 i hiA', F.lt_fin_fin]
    simp only [decide_eq_false_iff_not, not_lt]
    -- suppose the new entry were strictly smaller
    by_contra hcon
    push_neg at hcon
    have hdi0 : 0 ≤ (demandsOf df.rows).getD i 0 := by
      rw [getD_eq_of_lt _ _ hiA]
      exact hdnn _ (List.getElem_mem hiA)
    -- run 2 cannot have ended all-capped
    have hsum' : wSum (demandsOf df'.rows) (limitsOf df.rows) mu2'
        (demandsOf df'.rows).length = extract_group_capacity df.rows := by
      rcases hdisj' with h | hempty'
      · exact h
      · exfalso
        have hnotin : i ∉ get_remaining_products al' (limitsOf df.rows) := by
          rw [hempty']
          simp
        obtain ⟨l, hlim, hval', _⟩ := capped_wEntry (demandsOf df'.rows)
          (limitsOf df.rows) mu2' al' hg hld' hw2' i hiA' hnotin
        have hele : wEntry (demandsOf df.rows) (limitsOf df.rows) mu2 i ≤ l := by
          rw [wEntry_of_fin _ _ _ _ l hlim]
          exact min_le_right _ _
        rw [hval'] at hcon
        exact absurd (lt_of_le_of_lt hele hcon) (lt_irrefl _)
    -- find another entity that strictly gained
    have hsum1 : wSum (demandsOf df.rows) (limitsOf df.rows) mu2
        (demandsOf df.rows).length ≤ extract_group_capacity df.rows := hle2
    have herase : ∑ j in (Finset.range (demandsOf df.rows).length).erase i,
        wEntry (demandsOf df.rows) (limitsOf df.rows) mu2 j <
        ∑ j in (Finset.range (demandsOf df.rows).length).erase i,
          wEntry (demandsOf df'.rows) (limitsOf df.rows) mu2' j := by
      have h1 := Finset.sum_erase_add (Finset.range (demandsOf df.rows).length)
        (fun j => wEntry (demandsOf df.rows) (limitsOf df.rows) mu2 j)
        (Finset.mem_range.mpr hiA)
      have h2 := Finset.sum_erase_add (Finset.range (demandsOf df.rows).length)
        (fun j => wEntry (demandsOf df'.rows) (limitsOf df.rows) mu2' j)
        (Finset.mem_range.mpr hiA)
      rw [wSum] at hsum1 hsum'
      rw [hdlen] at hsum'
      linarith
    obtain ⟨j, hjmem, hjlt⟩ := Finset.exists_lt_of_sum_lt herase
    have hjne : j ≠ i := Finset.ne_of_mem_erase hjmem
    have hjn : j < (demandsOf df.rows).length :=
      Finset.mem_range.mp (Finset.mem_of_mem_erase hjmem)
    have hdjeq : (demandsOf df'.rows).getD j 0 = (demandsOf df.rows).getD j 0 :=
      hdagree j hjne
    have hdj0 : 0 ≤ (demandsOf df.rows).getD j 0 := by
      rw [getD_eq_of_lt _ _ hjn]
      exact hdnn _ (List.getElem_mem hjn)
    -- from the gain at j conclude the multiplier grew
    have hmul : mu2 * (demandsOf df.rows).getD j 0 <
        mu2' * (demandsOf df.rows).getD j 0 := by
      have hup : wEntry (demandsOf df'.rows) (limitsOf df.rows) mu2' j ≤
          mu2' * (demandsOf df.rows).getD j 0 := by
        have := wEntry_le_mul (demandsOf df'.rows) (limitsOf df.rows) mu2' j
        rwa [hdjeq] at this
      rcases limit_cases (limitsOf df.rows) hg j (by omega) with hpinf | ⟨l, hfin⟩
      · rw [wEntry_of_pinf _ _ _ _ hpinf] at hjlt
        exact lt_of_lt_of_le hjlt hup
      · have hjleL : wEntry (demandsOf df'.rows) (limitsOf df.rows) mu2' j ≤ l := by
          rw [wEntry_of_fin _ _ _ _ l hfin]
          exact min_le_right _ _
        have hlow : wEntry (demandsOf df.rows) (limitsOf df.rows) mu2 j =
            mu2 * (demandsOf df.rows).getD j 0 := by
          rw [wEntry_of_fin _ _ _ _ l hfin]
          have hltl : wEntry (demandsOf df.rows) (limitsOf df.rows) mu2 j < l :=
            lt_of_lt_of_le hjlt hjleL
          rw [wEntry_of_fin _ _ _ _ l hfin] at hltl
          rcases le_or_lt (mu2 * (demandsOf df.rows).getD j 0) l with hcmp | hcmp
          · exact min_eq_left hcmp
          · rw [min_eq_right hcmp.le] at hltl
            exact absurd hltl (lt_irrefl l)
        rw [hlow] at hjlt
        exact lt_of_lt_of_le hjlt hup
    have hdjpos : 0 < (demandsOf df.rows).getD j 0 := by
      rcases lt_or_eq_of_le hdj0 with h | h
      · exact h
      · rw [← h] at hmul
        simp at hmul
    have hmu2lt : mu2 < mu2' := (mul_lt_mul_right hdjpos).mp hmul
    -- but then entity i cannot have lost
    have hprod : mu2 * (demandsOf df.rows).getD i 0 ≤
        mu2' * (demandsOf df'.rows).getD i 0 :=
      mul_le_mul hmu2lt.le hdinc hdi0 hmu2nn'
    rcases limit_cases (limitsOf df.rows) hg i (by omega) with hpinf | ⟨l, hfin⟩
    · rw [wEntry_of_pinf _ _ _ _ hpinf, wEntry_of_pinf _ _ _ _ hpinf] at hcon
      exact absurd (lt_of_le_of_lt hprod hcon) (lt_irrefl _)
    · rw [wEntry_of_fin _ _ _ _ l hfin, wEntry_of_fin _ _ _ _ l hfin] at hcon
      have := min_le_min hprod (le_refl l)
      exact absurd (lt_of_le_of_lt this hcon) (lt_irrefl _)

/-- Witness for C8: raising the single entity's demand from 10 to 20 with
pool 50 and limit 100 leaves its allocation at 50, not below it. -/
theorem C8_demand_monotonicity_witness :
    F.lt (([F.fin 50] : List F).getD 0 F.nan)
      (([F.fin 50] : List F).getD 0 F.nan) = false :=
  C8_demand_monotonicity c8wdf c8wdf2 0 1 1 c8wout c8wout2 [F.fin 50] [F.fin 50]
    (by norm_num [c8wdf, c8wdf2, inputFrame])
    (by
      intro j hj
      rw [getD_eq_of_le _ _ (by simp [c8wdf2, inputFrame]; omega),
        getD_eq_of_le _ _ (by simp [c8wdf, inputFrame]; omega)])
    (by norm_num [c8wdf, c8wdf2, inputFrame])
    (by norm_num [c8wdf, c8wdf2, inputFrame])
    (by norm_num [c8wdf, c8wdf2, inputFrame])
    (by norm_num [c8wdf, inputFrame])
    (by
      intro r hr
      simp only [c8wdf, inputFrame, List.mem_cons, List.not_mem_nil, or_false] at hr
      subst hr
      norm_num)
    (by norm_num [c8wdf, inputFrame, extract_group_capacity])
    (by
      norm_num [ProportionalAllocation.allocate, c8wdf, c8wout, inputFrame,
        requiredColumnsPresent, demandsOf, limitsOf, extract_group_capacity,
        fillna, rawLimit, initial_allocation, adjust_allocation,
        calculate_allocation_share, new_overlimit,
        F.div, F.mul, F.pymin, F.lt, F.sumF, F.add])
    (by
      norm_num [ProportionalAllocation.allocate, c8wdf2, c8wout2, inputFrame,
        requiredColumnsPresent, demandsOf, limitsOf, extract_group_capacity,
        fillna, rawLimit, initial_allocation, adjust_allocation,
        calculate_allocation_share, new_overlimit,
        F.div, F.mul, F.pymin, F.lt, F.sumF, F.add])
    rfl
    rfl

/-- Pointwise value of the NEW OVERLIMIT column: the allocation compared
against the raw INDIVIDUAL LIMIT value of the row (NaN for a missing
limit). -/
theorem new_overlimit_getD (al : List F) (rows : List Row) (i : ℕ)
    (hi : i < al.length) (hr : i < rows.length) :
    (new_overlimit al rows).getD i true =
      F.lt (al.getD i F.nan) (rawLimit ((rows.getD i default).individualLimit)) := by
  rw [new_overlimit]
  have hlen : i < ((al.zip (rows.map (fun r => rawLimit r.individualLimit))).map
      (fun p => F.lt p.1 p.2)).length := by
    simp only [List.length_map, List.length_zip, List.length_map]
    omega
  rw [getD_eq_of_lt _ _ hlen, getD_eq_of_lt _ _ hi, getD_eq_of_lt _ _ hr]
  simp [List.getElem_zip]

/-- C5, amended: the flag column is the allocation compared against the
raw INDIVIDUAL LIMIT column, so an entity with a finite limit l gets
allocated < l, and an entity with a missing limit always gets false (the
NaN comparison), not true as the frozen claim says. -/
theorem C5_flag_raw_limit_comparison (fuel : ℕ) (df out : DataFrame)
    (al : List F) (fl : List Bool) (i : ℕ)
    (hne : df.rows ≠ [])
    (h : ProportionalAllocation.allocate fuel (PFrame.reg df) =
      Except.ok (some (PFrame.reg out)))
    (hal : out.allocationCol = some al)
    (hfl : out.newOverlimitCol = some fl)
    (hi : i < df.rows.length) :
    fl.getD i true = F.lt (al.getD i F.nan)
      (rawLimit ((df.rows.getD i default).individualLimit)) ∧
    ((df.rows.getD i default).individualLimit = none → fl.getD i true = false) := by
  obtain ⟨hreq, A, hadj, hout⟩ := allocate_ok_some fuel df out h hne
  have hAal : al = A := by
    rw [hout] at hal
    exact (by simpa using hal : A = al).symm
  subst hAal
  have hflA : fl = new_overlimit al df.rows := by
    rw [hout] at hfl
    exact (by simpa using hfl : new_overlimit al df.rows = fl).symm
  subst hflA
  have hallen : al.length = df.rows.length := by
    rw [adjust_allocation_length (demandsOf df.rows) (limitsOf df.rows)
        (extract_group_capacity df.rows) fuel _ al hadj,
      initial_allocation_length, demandsOf_length, limitsOf_length, min_self]
  have hmain := new_overlimit_getD al df.rows i (by omega) hi
  refine ⟨hmain, fun hnone => ?_⟩
  rw [hmain, hnone]
  exact F.lt_nan _

/-- Witness for C5 at the frame c5df (one entity, demand 10, no limit,
pool 50): the flag is false although the allocation 50 is finite. -/
theorem C5_flag_raw_limit_witness :
    ([false] : List Bool).getD 0 true = F.lt (([F.fin 50] : List F).getD 0 F.nan)
      (rawLimit ((c5df.rows.getD 0 default).individualLimit)) ∧
    ((c5df.rows.getD 0 default).individualLimit = none →
      ([false] : List Bool).getD 0 true = false) :=
  C5_flag_raw_limit_comparison 1 c5df c5wout [F.fin 50] [false]
    0
    (by simp [c5df, inputFrame])
    (by
      norm_num [ProportionalAllocation.allocate, c5df, c5wout, inputFrame,
        requiredColumnsPresent, demandsOf, limitsOf, extract_group_capacity,
        fillna, rawLimit, initial_allocation, adjust_allocation,
        calculate_allocation_share, new_overlimit,
        F.div, F.mul, F.pymin, F.lt, F.sumF, F.add])
    rfl
    rfl
    (by norm_num [c5df, inputFrame])

/-- C6, amended: allocate raises its KeyError exactly when a required
column is missing, on either frame shape; values are never validated, so
negative demands, limits or pool flow into the computation (see the
counterexample). -/
theorem C6_error_iff_missing_columns (fuel : ℕ) (p : PFrame) :
    isKeyError (ProportionalAllocation.allocate fuel p) = true ↔
      requiredColumnsPresentP p = false := by
  cases p with
  | reg df =>
      rw [ProportionalAllocation.allocate]
      simp only [requiredColumnsPresentP]
      by_cases hreq : requiredColumnsPresent df = true
      · rw [if_neg (by simp [hreq])]
        constructor
        · intro hk
          exfalso
          by_cases hemp : df.rows.isEmpty = true
          · rw [if_pos hemp] at hk
            simp [isKeyError] at hk
          · rw [if_neg hemp] at hk
            cases hadj : adjust_allocation fuel
                (initial_allocation (demandsOf df.rows) (limitsOf df.rows)
                  (extract_group_capacity df.rows))
                (demandsOf df.rows) (limitsOf df.rows)
                (extract_group_capacity df.rows) with
            | none => rw [hadj] at hk; simp [isKeyError] at hk
            | some A => rw [hadj] at hk; simp [isKeyError] at hk
        · intro hf
          rw [hreq] at hf
          cases hf
      · rw [if_pos (by simp [hreq])]
        constructor
        · intro _
          simpa using hreq
        · intro _
          rfl
  | emptied ef =>
      rw [ProportionalAllocation.allocate]
      simp only [requiredColumnsPresentP]
      by_cases hreq : requiredColumnsPresentE ef = true
      · rw [if_neg (by simp [hreq])]
        constructor
        · intro hk
          simp [isKeyError] at hk
        · intro hf
          rw [hreq] at hf
          cases hf
      · rw [if_pos (by simp [hreq])]
        constructor
        · intro _
          simpa using hreq
        · intro _
          rfl

/-- Concrete trace of the empty path: on an empty input frame allocate
returns a fresh frame carrying one ALLOCATION label, and re-running
allocate on that returned frame appends a second ALLOCATION label instead
of reproducing it. -/
theorem allocate_empty_label_growth :
    ProportionalAllocation.allocate 1 (PFrame.reg (inputFrame [])) =
      Except.ok (some (PFrame.emptied ⟨true, true, true, 1, false, false⟩)) ∧
    ProportionalAllocation.allocate 1
        (PFrame.emptied ⟨true, true, true, 1, false, false⟩) =
      Except.ok (some (PFrame.emptied ⟨true, true, true, 2, false, false⟩)) := by
  constructor <;>
    norm_num [ProportionalAllocation.allocate, inputFrame,
      requiredColumnsPresent, requiredColumnsPresentE, handle_empty_data]

/-- C7, amended: allocate holds no state across calls and is
deterministic, but it is not free of side effects: on a non-empty frame it
writes the result columns into the caller's frame in place and returns
that same frame (source lines 97-99 and 101), and running allocate again
on the returned frame reproduces it exactly.  On an empty frame the call
instead returns the fresh frame of handle_empty_data, whose labels are the
input's plus one more ALLOCATION; re-running on that returned frame
appends yet another ALLOCATION label, so it is never reproduced.
Formally: a returned frame is a fixpoint of allocate exactly when it is a
regular frame. -/
theorem C7_idempotent_on_result (fuel : ℕ) (p q : PFrame)
    (h : ProportionalAllocation.allocate fuel p = Except.ok (some q)) :
    (ProportionalAllocation.allocate fuel q = Except.ok (some q)) ↔
      q.isReg = true := by
  cases p with
  | reg df =>
      rw [ProportionalAllocation.allocate] at h
      by_cases hreq : requiredColumnsPresent df = true
      · rw [if_neg (by simp [hreq])] at h
        by_cases hemp : df.rows.isEmpty = true
        · rw [if_pos hemp] at h
          have hq : PFrame.emptied (handle_empty_data (.reg df)) = q := by
            simp only [Except.ok.injEq, Option.some.injEq] at h
            exact h
          subst hq
          refine iff_of_false ?_ (by simp [PFrame.isReg])
          intro hrun
          rw [ProportionalAllocation.allocate] at hrun
          have hreqE : requiredColumnsPresentE (handle_empty_data (.reg df)) = true := by
            simp only [requiredColumnsPresent] at hreq
            simp [handle_empty_data, requiredColumnsPresentE, hreq]
          rw [if_neg (by simp [hreqE])] at hrun
          simp [handle_empty_data] at hrun
        · rw [if_neg hemp] at h
          simp only [] at h
          cases hadj : adjust_allocation fuel
              (initial_allocation (demandsOf df.rows) (limitsOf df.rows)
                (extract_group_capacity df.rows))
              (demandsOf df.rows) (limitsOf df.rows)
              (extract_group_capacity df.rows) with
          | none => rw [hadj] at h; simp at h
          | some A =>
              rw [hadj] at h
              have hq : PFrame.reg { df with
                  allocationCol := some A,
                  newAllocShareCol :=
                    some (calculate_allocation_share A (demandsOf df.rows)),
                  newOverlimitCol := some (new_overlimit A df.rows) } = q := by
                simp only [Except.ok.injEq, Option.some.injEq] at h
                exact h
              subst hq
              refine iff_of_true ?_ rfl
              rw [ProportionalAllocation.allocate]
              rw [if_neg (by simp [requiredColumnsPresent] at hreq ⊢; tauto)]
              rw [if_neg (by simpa using hemp)]
              simp only []
              rw [hadj]
      · rw [if_pos (by simp [hreq])] at h
        simp at h
  | emptied ef =>
      rw [ProportionalAllocation.allocate] at h
      by_cases hreq : requiredColumnsPresentE ef = true
      · rw [if_neg (by simp [hreq])] at h
        have hq : PFrame.emptied (handle_empty_data (.emptied ef)) = q := by
          simp only [Except.ok.injEq, Option.some.injEq] at h
          exact h
        subst hq
        refine iff_of_false ?_ (by simp [PFrame.isReg])
        intro hrun
        rw [ProportionalAllocation.allocate] at hrun
        have hreqE : requiredColumnsPresentE (handle_empty_data (.emptied ef)) = true := by
          simp only [requiredColumnsPresentE] at hreq
          simp [handle_empty_data, requiredColumnsPresentE, hreq]
        rw [if_neg (by simp [hreqE])] at hrun
        simp [handle_empty_data] at hrun
      · rw [if_pos (by simp [hreq])] at h
        simp at h

/-- Witness for C7 at scenario 3 of the spec: the frame returned for the
non-empty c7wdf is a regular frame, and re-running allocate on it returns
that frame unchanged. -/
theorem C7_idempotent_witness :
    ProportionalAllocation.allocate 1 (PFrame.reg c7wout) =
      Except.ok (some (PFrame.reg c7wout)) :=
  (C7_idempotent_on_result 1 (PFrame.reg c7wdf) (PFrame.reg c7wout)
    (by
      norm_num [ProportionalAllocation.allocate, c7wdf, c7wout, inputFrame,
        requiredColumnsPresent, demandsOf, limitsOf, extract_group_capacity,
        fillna, rawLimit, initial_allocation, adjust_allocation,
        get_remaining_products, List.range, List.range.loop, List.filter,
        calculate_allocation_share, new_overlimit,
        F.div, F.mul, F.pymin, F.lt, F.sumF, F.add])).mpr rfl

/-- Counterexample to C7 as frozen: allocate does not leave its input
unchanged.  It assigns the ALLOCATION, NEW ALLOC. SHARE and NEW OVERLIMIT
columns into the caller's frame in place and returns that same object, so
after the call the input frame equals the returned frame c7wout, which
differs from the frame c7wdf that was passed in. -/
theorem C7_input_mutated_counterexample :
    ProportionalAllocation.allocate 1 (PFrame.reg c7wdf) =
        Except.ok (some (PFrame.reg c7wout)) ∧
      decide (c7wout = c7wdf) = false := by
  constructor
  · norm_num [ProportionalAllocation.allocate, c7wdf, c7wout, inputFrame,
      requiredColumnsPresent, demandsOf, limitsOf, extract_group_capacity,
      fillna, rawLimit, initial_allocation, adjust_allocation,
      get_remaining_products, List.range, List.range.loop, List.filter,
      calculate_allocation_share, new_overlimit,
      F.div, F.mul, F.pymin, F.lt, F.sumF, F.add]
  · exact decide_eq_false (by simp [c7wdf, c7wout, inputFrame])

/-- C9, amended: allocate reads the GROUP CAPACITY column only through its
first row, so two inputs that agree except in the GROUP CAPACITY values of
rows after the first produce identical computed columns (ALLOCATION,
NEW ALLOC. SHARE, NEW OVERLIMIT).  The full returned frames still differ,
because the returned frame carries the differing input column (see the
counterexample). -/
theorem C9_group_capacity_first_row_only (fuel : ℕ) (df df2 : DataFrame)
    (hflag1 : df2.hasGroupCapacity = df.hasGroupCapacity)
    (hflag2 : df2.hasCapacity = df.hasCapacity)
    (hflag3 : df2.hasIndividualLimit = df.hasIndividualLimit)
    (hlen : df2.rows.length = df.rows.length)
    (hcapcol : ∀ j, (df2.rows.getD j default).capacity =
      (df.rows.getD j default).capacity)
    (hlimcol : ∀ j, (df2.rows.getD j default).individualLimit =
      (df.rows.getD j default).individualLimit)
    (hgc0 : (df2.rows.getD 0 default).groupCapacity =
      (df.rows.getD 0 default).groupCapacity)
    (hacol : df2.allocationCol = df.allocationCol)
    (hscol : df2.newAllocShareCol = df.newAllocShareCol)
    (hocol : df2.newOverlimitCol = df.newOverlimitCol) :
    computedCols (ProportionalAllocation.allocate fuel (PFrame.reg df2)) =
      computedCols (ProportionalAllocation.allocate fuel (PFrame.reg df)) := by
  have hreq : requiredColumnsPresent df2 = requiredColumnsPresent df := by
    simp [requiredColumnsPresent, hflag1, hflag2, hflag3]
  rw [ProportionalAllocation.allocate, ProportionalAllocation.allocate]
  by_cases hr : requiredColumnsPresent df = true
  · rw [if_neg (show ¬ ¬ (requiredColumnsPresent df2 = true) by simp [hreq, hr]),
      if_neg (show ¬ ¬ (requiredColumnsPresent df = true) by simp [hr])]
    by_cases hemp : df.rows = []
    · have hemp2 : df2.rows = [] := by
        rw [← List.length_eq_zero]
        rw [hlen, hemp]
        rfl
      rw [if_pos (show df2.rows.isEmpty = true by simp [List.isEmpty_iff, hemp2]),
        if_pos (show df.rows.isEmpty = true by simp [List.isEmpty_iff, hemp])]
      simp [computedCols, handle_empty_data, hflag1, hflag2, hflag3,
        hacol, hscol, hocol]
    · have hemp2 : df2.rows ≠ [] := by
        intro hc
        rw [hc] at hlen
        simp at hlen
        exact hemp (List.length_eq_zero.mp hlen.symm)
      rw [if_neg (show ¬ (df2.rows.isEmpty = true) by
          simpa [List.isEmpty_iff] using hemp2),
        if_neg (show ¬ (df.rows.isEmpty = true) by
          simpa [List.isEmpty_iff] using hemp)]
      simp only []
      have hdem : demandsOf df2.rows = demandsOf df.rows := by
        refine list_ext_getD _ _ 0
          (by rw [demandsOf_length, demandsOf_length, hlen]) (fun j hj => ?_)
        rw [demandsOf_length] at hj
        rw [demandsOf_getD _ _ hj, demandsOf_getD _ _ (by omega), hcapcol j]
      have hlims : limitsOf df2.rows = limitsOf df.rows := by
        refine list_ext_getD _ _ F.nan
          (by rw [limitsOf_length, limitsOf_length, hlen]) (fun j hj => ?_)
        rw [limitsOf_length] at hj
        rw [limitsOf_getD _ _ hj, limitsOf_getD _ _ (by omega), hlimcol j]
      have hgc : extract_group_capacity df2.rows = extract_group_capacity df.rows := by
        rw [extract_eq_getD _ hemp2, extract_eq_getD _ hemp, hgc0]
      have hraw : df2.rows.map (fun r => rawLimit r.individualLimit) =
          df.rows.map (fun r => rawLimit r.individualLimit) := by
        refine list_ext_getD _ _ F.nan (by simp [hlen]) (fun j hj => ?_)
        simp only [List.length_map] at hj
        rw [getD_eq_of_lt _ _ (by simpa using hj),
          getD_eq_of_lt _ _ (by simp; omega)]
        simp only [List.getElem_map]
        rw [← getD_eq_of_lt df2.rows default hj,
          ← getD_eq_of_lt df.rows default (by omega), hlimcol j]
      rw [hdem, hlims, hgc]
      cases hadj : adjust_allocation fuel
          (initial_allocation (demandsOf df.rows) (limitsOf df.rows)
            (extract_group_capacity df.rows))
          (demandsOf df.rows) (limitsOf df.rows)
          (extract_group_capacity df.rows) with
      | none => rfl
      | some A =>
          simp only [computedCols]
          rw [new_overlimit, new_overlimit, hraw]
  · rw [if_pos (show ¬ (requiredColumnsPresent df2 = true) by simp [hreq, hr]),
      if_pos (show ¬ (requiredColumnsPresent df = true) by simp [hr])]

/-- Witness for C9 at the pair c9adf / c9bdf (second-row GROUP CAPACITY 10
versus 999): the computed columns agree. -/
theorem C9_group_capacity_witness :
    computedCols (ProportionalAllocation.allocate 1 (PFrame.reg c9bdf)) =
      computedCols (ProportionalAllocation.allocate 1 (PFrame.reg c9adf)) :=
  C9_group_capacity_first_row_only 1 c9adf c9bdf rfl rfl rfl rfl
    (by
      intro j
      match j with
      | 0 => rfl
      | 1 => rfl
      | n + 2 =>
          have h1 : c9bdf.rows.length ≤ n + 2 := by
            simp only [c9bdf, inputFrame, List.length_cons, List.length_nil]
            omega
          have h2 : c9adf.rows.length ≤ n + 2 := by
            simp only [c9adf, inputFrame, List.length_cons, List.length_nil]
            omega
          rw [getD_eq_of_le _ _ h1, getD_eq_of_le _ _ h2])
    (by
      intro j
      match j with
      | 0 => rfl
      | 1 => rfl
      | n + 2 =>
          have h1 : c9bdf.rows.length ≤ n + 2 := by
            simp only [c9bdf, inputFrame, List.length_cons, List.length_nil]
            omega
          have h2 : c9adf.rows.length ≤ n + 2 := by
            simp only [c9adf, inputFrame, List.length_cons, List.length_nil]
            omega
          rw [getD_eq_of_le _ _ h1, getD_eq_of_le _ _ h2])
    rfl rfl rfl rfl

/-- Counterexample to C9 as frozen: on the pair c9adf / c9bdf, which agree
except in the second row's GROUP CAPACITY, allocate returns frames that
are NOT identical: the returned frame is the input frame with columns
added, so it still carries the differing GROUP CAPACITY values. -/
theorem C9_output_differs_counterexample :
    ProportionalAllocation.allocate 1 (PFrame.reg c9adf) =
        Except.ok (some (PFrame.reg c9aout)) ∧
      ProportionalAllocation.allocate 1 (PFrame.reg c9bdf) =
        Except.ok (some (PFrame.reg c9bout)) ∧
      decide (c9aout = c9bout) = false := by
  refine ⟨?_, ?_, decide_eq_false (by simp [c9aout, c9bout])⟩ <;>
    norm_num [ProportionalAllocation.allocate, c9adf, c9bdf, c9aout, c9bout,
      inputFrame, requiredColumnsPresent, demandsOf, limitsOf,
      extract_group_capacity, fillna, rawLimit, initial_allocation,
      adjust_allocation, calculate_allocation_share, new_overlimit,
      F.div, F.mul, F.pymin, F.lt, F.sumF, F.add]
